import Mathlib

/-!
Verification development for the job lifecycle timeline histogram engine in
`condor_necropsy/state_graph.py`.

Shallow embedding conventions:
* Python floats are modelled as exact rationals (`ℚ`); Python ints as `ℤ`/`ℕ`.
* `collections.Counter` objects keyed by `JobStatus` are modelled as total
  functions (`JobStatus → ℤ`, missing key = 0), matching Counter's
  default-zero lookup.
* Fallible code paths (indexing an empty list, dividing by zero) are modelled
  with `Except Err`.
-/

/-- `JobStatus` enum from `state_graph.py` (an `IntEnum`; enumeration order is
significant). -/
inductive JobStatus
  | UNKNOWN
  | IDLE
  | RUNNING
  | REMOVED
  | COMPLETED
  | HELD
  | SUSPENDED
  deriving DecidableEq, Repr

/-- Enumeration order of `JobStatus`, i.e. iteration order of `for status in JobStatus`. -/
def JobStatus.all : List JobStatus :=
  [.UNKNOWN, .IDLE, .RUNNING, .REMOVED, .COMPLETED, .HELD, .SUSPENDED]

/-- The numeric value of each `JobStatus` member (its index in enumeration order). -/
def JobStatus.idx : JobStatus → ℕ
  | .UNKNOWN => 0
  | .IDLE => 1
  | .RUNNING => 2
  | .REMOVED => 3
  | .COMPLETED => 4
  | .HELD => 5
  | .SUSPENDED => 6

/-- Integer-valued status counters (the state tracker's `job_state_counts`). -/
abbrev Counts := JobStatus → ℤ

/-- Rational-valued status counters (averaged samples inside `histogram`). -/
abbrev QCounts := JobStatus → ℚ

/-- Failure modes of the engine.  The Python code surfaces these as uncaught
exceptions: `emptyInput` is the `IndexError` raised by indexing the empty
`counts_over_time` (the spec's EmptyInputError), `noActiveJobs` is the
`ZeroDivisionError` raised by dividing by a zero `max_jobs` (the spec's
NoActiveJobsError), `zeroDivision` is the `ZeroDivisionError` computing `dt`
for zero divisions, `indexError` covers the remaining list-index failures and
`valueError` Python's `max()` on an empty sequence. -/
inductive Err
  | emptyInput
  | zeroDivision
  | indexError
  | noActiveJobs
  | valueError
  deriving DecidableEq, Repr

/-- Python `max` over a nonempty list of integers (`none` for the empty list,
where Python raises `ValueError`). -/
def listMaxZ : List ℤ → ℤ
  | [] => 0
  | h :: t => t.foldl max h

/-- Python `list.index`: index of the first occurrence of `a` (returns the
length when absent; in the embedded code `a` is always present). -/
def firstIdxOf (a : ℤ) : List ℤ → ℕ
  | [] => 0
  | h :: t => if h = a then 0 else firstIdxOf a t + 1

/-- The raw (fractional) row allocation `(counts.get(status, 0) / max_jobs) * height`
for each status in enumeration order (`state_graph.py:165`). -/
def rawList (counts : QCounts) (maxJobs : ℚ) (height : ℤ) : List ℚ :=
  JobStatus.all.map (fun s => counts s / maxJobs * (height : ℚ))

/-- One iteration of the classification loop in `calculate_column_partition`
(`state_graph.py:169-182`): the integer rows assigned to one raw entry. -/
def intEntry (entry : ℚ) : ℤ :=
  if entry = 0 then 0
  else if entry - ⌊entry⌋ ≥ 1 / 2 then ⌈entry⌉
  else if ⌊entry⌋ = 0 then 1
  else ⌊entry⌋

/-- The carry contributed by one raw entry (1 exactly when a small nonzero
entry is forced up to one row). -/
def carryOf (entry : ℚ) : ℤ :=
  if entry = 0 then 0
  else if entry - ⌊entry⌋ ≥ 1 / 2 then 0
  else if ⌊entry⌋ = 0 then 1
  else 0

/-- Round half up: the value the classification assigns when no visibility
forcing happens (used to characterise the total). -/
def halfUp (e : ℚ) : ℤ :=
  if e - ⌊e⌋ ≥ 1 / 2 then ⌈e⌉ else ⌊e⌋

/-- The `int_split` list after the classification loop. -/
def intSplit (counts : QCounts) (maxJobs : ℚ) (height : ℤ) : List ℤ :=
  (rawList counts maxJobs height).map intEntry

/-- The total carry accumulated by the classification loop. -/
def carryTotal (counts : QCounts) (maxJobs : ℚ) (height : ℤ) : ℤ :=
  ((rawList counts maxJobs height).map carryOf).sum

/-- Index of the status absorbing the carry:
`int_split.index(max(int_split))` (`state_graph.py:184`). -/
def absorbIdx (counts : QCounts) (maxJobs : ℚ) (height : ℤ) : ℕ :=
  firstIdxOf (listMaxZ (intSplit counts maxJobs height)) (intSplit counts maxJobs height)

/-- `int_split` after the carry subtraction at the first maximal entry. -/
def partitionList (counts : QCounts) (maxJobs : ℚ) (height : ℤ) : List ℤ :=
  let l := intSplit counts maxJobs height
  let i := absorbIdx counts maxJobs height
  l.set i (l.getD i 0 - carryTotal counts maxJobs height)

/-- The partition as a mapping `JobStatus → rows`
(`{k: v for k, v in zip(JobStatus, int_split)}`). -/
def partitionCore (counts : QCounts) (maxJobs : ℚ) (height : ℤ) : JobStatus → ℤ :=
  fun s => (partitionList counts maxJobs height).getD s.idx 0

/-- `calculate_column_partition` (`state_graph.py:164-186`).  With
`max_jobs == 0` the division `counts.get(status, 0) / max_jobs` raises
`ZeroDivisionError` (the spec's NoActiveJobsError). -/
def calculate_column_partition (counts : QCounts) (maxJobs : ℚ) (height : ℤ) :
    Except Err (JobStatus → ℤ) :=
  if maxJobs = 0 then .error .noActiveJobs
  else .ok (partitionCore counts maxJobs height)

/-- Sum of assigned rows over all statuses. -/
def rowSum (f : JobStatus → ℤ) : ℤ := (JobStatus.all.map f).sum

/-- Sum over all statuses of a rational counter (`total_counts` on samples). -/
def totalQ (c : QCounts) : ℚ := (JobStatus.all.map c).sum

/-- Counterexample sample for C1: one Idle job and one Running job. -/
def cexC1 : QCounts
  | .IDLE => 1
  | .RUNNING => 1
  | _ => 0

/-- Counterexample sample for C2: one job each in Idle, Running and Removed. -/
def cexC2 : QCounts
  | .IDLE => 1
  | .RUNNING => 1
  | .REMOVED => 1
  | _ => 0

/-- Witness sample: one Idle job and nine Running jobs. -/
def wC1 : QCounts
  | .IDLE => 1
  | .RUNNING => 9
  | _ => 0

/-- One timeline point: `(timestamp, counts snapshot)`. -/
abbrev TimelinePoint := ℚ × Counts

/-- The forward scan of `group_counts_by_time` (`state_graph.py:211-215`):
`for right_idx, (timestamp, _) in enumerate(counts_over_time[left_idx:], start=left_idx)`
breaking at the first timestamp strictly greater than `rightTime`.  The loop
variable `right_idx` keeps its previous value `r0` when the slice is empty and
stays at the last enumerated index when no break occurs. -/
def scanIdx : List TimelinePoint → ℕ → ℚ → ℕ → ℕ
  | [], _, _, r0 => r0
  | p :: rest, i, rightTime, _ =>
    if p.1 > rightTime then i else scanIdx rest (i + 1) rightTime i

/-- The window loop of `group_counts_by_time`: `m` remaining windows, current
window index `n` (so this window is `[first + n*dt, first + n*dt + dt]`),
current scan position `left`. -/
def group_aux (cot : List TimelinePoint) (first dt : ℚ) :
    ℕ → ℕ → ℕ → List (List TimelinePoint)
  | 0, _, _ => []
  | m + 1, n, left =>
    let rightTime := first + n * dt + dt
    let r := scanIdx (cot.drop left) left rightTime left
    (cot.drop left).take (r - left) :: group_aux cot first dt m (n + 1) r

/-- Timestamp of the first timeline point (`counts_over_time[0][0]`). -/
def firstTime (cot : List TimelinePoint) : ℚ := ((cot.head?).map Prod.fst).getD 0

/-- Timestamp of the last timeline point (`counts_over_time[-1][0]`). -/
def lastTime (cot : List TimelinePoint) : ℚ := ((cot.getLast?).map Prod.fst).getD 0

/-- `dt = (last_time - first_time) / n_divisions` (`state_graph.py:204`). -/
def windowWidth (cot : List TimelinePoint) (nDivisions : ℤ) : ℚ :=
  (lastTime cot - firstTime cot) / (nDivisions : ℚ)

/-- `group_counts_by_time` (`state_graph.py:200-218`).  On the empty list the
Python generator would raise `IndexError`; `histogram` never reaches it with an
empty list (it fails first), so that branch returns `[]` here. -/
def group_counts_by_time (cot : List TimelinePoint) (nDivisions : ℤ) :
    List (List TimelinePoint) :=
  match cot with
  | [] => []
  | _ :: _ =>
    group_aux cot (firstTime cot) (windowWidth cot nDivisions) nDivisions.toNat 0 0

/-- Event kinds (`htcondor.JobEventType` members used by the log source; the
first eleven are the keys of `JOB_EVENT_STATUS_TRANSITIONS`, the rest are
representative kinds absent from the table). -/
inductive JobEventType
  | SUBMIT
  | JOB_EVICTED
  | JOB_UNSUSPENDED
  | JOB_RELEASED
  | SHADOW_EXCEPTION
  | JOB_RECONNECT_FAILED
  | JOB_TERMINATED
  | EXECUTE
  | JOB_HELD
  | JOB_SUSPENDED
  | JOB_ABORTED
  | EXECUTABLE_ERROR
  | CHECKPOINTED
  | IMAGE_SIZE
  | GENERIC
  | JOB_AD_INFORMATION
  | JOB_DISCONNECTED
  | JOB_RECONNECTED
  deriving DecidableEq, Repr

/-- `JOB_EVENT_STATUS_TRANSITIONS.get(event.type, None)` (`state_graph.py:31-43`). -/
def JOB_EVENT_STATUS_TRANSITIONS : JobEventType → Option JobStatus
  | .SUBMIT => some .IDLE
  | .JOB_EVICTED => some .IDLE
  | .JOB_UNSUSPENDED => some .IDLE
  | .JOB_RELEASED => some .IDLE
  | .SHADOW_EXCEPTION => some .IDLE
  | .JOB_RECONNECT_FAILED => some .IDLE
  | .JOB_TERMINATED => some .COMPLETED
  | .EXECUTE => some .RUNNING
  | .JOB_HELD => some .HELD
  | .JOB_SUSPENDED => some .SUSPENDED
  | .JOB_ABORTED => some .REMOVED
  | _ => none

/-- `(event.cluster, event.proc)` pair identifying a job. -/
abbrev EntityKey := ℤ × ℤ

/-- One log event as consumed by `make_state_graph`. -/
structure Event where
  timestamp : ℚ
  cluster : ℤ
  proc : ℤ
  type : JobEventType

/-- The state owned by the loop in `make_state_graph` (`state_graph.py:47-64`). -/
structure TrackState where
  job_states : List (EntityKey × JobStatus)
  job_state_counts : Counts
  counts_over_time : List TimelinePoint

/-- `job_states.get(event_key, None)` on the dict modelled as an association
list (keys unique by construction). -/
def lookupAssoc : List (EntityKey × JobStatus) → EntityKey → Option JobStatus
  | [], _ => none
  | kv :: t, k => if kv.1 = k then some kv.2 else lookupAssoc t k

/-- `job_states[event_key] = new_status`: update the existing entry in place,
or append a new one (Python dict insertion order). -/
def updAssoc (k : EntityKey) (v : JobStatus) :
    List (EntityKey × JobStatus) → List (EntityKey × JobStatus)
  | [] => [(k, v)]
  | kv :: t => if kv.1 = k then (k, v) :: t else kv :: updAssoc k v t

/-- `counter[s] += d` on a Counter. -/
def bump (c : Counts) (a : JobStatus) (d : ℤ) : Counts :=
  fun s => if s = a then c s + d else c s

/-- One iteration of the event loop (`state_graph.py:51-64`): look up the
transition, update the per-job status and the counters, and append a timeline
point regardless of whether a transition occurred. -/
def ingest (st : TrackState) (e : Event) : TrackState :=
  match JOB_EVENT_STATUS_TRANSITIONS e.type with
  | none =>
    { st with counts_over_time := st.counts_over_time ++ [(e.timestamp, st.job_state_counts)] }
  | some newStatus =>
    let key : EntityKey := (e.cluster, e.proc)
    let oldStatus := lookupAssoc st.job_states key
    let counts1 := bump st.job_state_counts newStatus 1
    let counts2 := match oldStatus with
      | some old => bump counts1 old (-1)
      | none => counts1
    { job_states := updAssoc key newStatus st.job_states
      job_state_counts := counts2
      counts_over_time := st.counts_over_time ++ [(e.timestamp, counts2)] }

/-- The event loop run from the initial empty state. -/
def runTrack (events : List Event) : TrackState :=
  events.foldl ingest ⟨[], fun _ => 0, []⟩

/-- `total_counts` (`state_graph.py:196-197`): sum of the counter's values
(every key ever stored is a `JobStatus`, missing keys are zero). -/
def totalCounts (c : Counts) : ℤ := (JobStatus.all.map c).sum

/-- Number of entries of the association list currently in status `s`. -/
def statusCount (l : List (EntityKey × JobStatus)) (s : JobStatus) : ℕ :=
  (l.filter (fun kv => kv.2 = s)).length

/-- Whether an event's kind appears in the transition table. -/
def isMapped (e : Event) : Bool := (JOB_EVENT_STATUS_TRANSITIONS e.type).isSome

/-- The distinct keys among events whose kind appears in the transition table. -/
def mappedKeysFinset (es : List Event) : Finset EntityKey :=
  ((es.filter isMapped).map (fun e => (e.cluster, e.proc))).toFinset

/-- Python `max` over a nonempty list of naturals (the embedded code only
calls it on nonempty lists). -/
def listMaxNat : List ℕ → ℕ
  | [] => 0
  | h :: t => t.foldl max h

/-- One iteration of the inner loop of `merge_strings` (`state_graph.py:120-122`):
`if out[idx] == " " and char != " ": out[idx] = char`. -/
def mergeStep (out : List Char) (p : ℕ × Char) : List Char :=
  if out.getD p.1 ' ' = ' ' ∧ p.2 ≠ ' ' then out.set p.1 p.2 else out

/-- `for idx, char in enumerate(string)` applied to the accumulator. -/
def mergeString (out : List Char) (s : String) : List Char :=
  (s.toList.enum).foldl mergeStep out

/-- `merge_strings` (`state_graph.py:114-124`).  With no input strings Python's
`max(len(s) for s in strings)` raises `ValueError`, modelled as `none`. -/
def merge_strings (strings : List String) : Option String :=
  match strings with
  | [] => none
  | _ :: _ =>
    let maxLen := listMaxNat (strings.map String.length)
    some (String.mk (strings.foldl mergeString (List.replicate maxLen ' ')))

/-- Modelled from the spec: "merge takes, at each character position, the
first non-space character among the inputs" — the spec-side description of the
merge output at position `i`, used to state the refinement. -/
def mergeSpecAt (strings : List String) (i : ℕ) : Char :=
  match strings.find? (fun s => decide (i < s.length) && decide (s.toList.getD i ' ' ≠ ' ')) with
  | some s => s.toList.getD i ' '
  | none => ' '

/-- Python `Counter.__add__`: pointwise sum keeping only positive entries
(dropped entries read back as 0). -/
def pyCounterAdd (a b : Counts) : Counts := fun s => max (a s + b s) 0

/-- View an integer counter as a rational one. -/
def toQCounts (c : Counts) : QCounts := fun s => (c s : ℚ)

/-- `avg_counts` (`state_graph.py:221-230`): `None` for an empty group,
otherwise the componentwise mean `sum(counts, Counter())` divided by the
group length. -/
def avg_counts (g : List TimelinePoint) : Option QCounts :=
  if g.length = 0 then none
  else
    let summed : Counts := g.foldl (fun acc p => pyCounterAdd acc p.2) (fun _ => 0)
    some (fun s => (summed s : ℚ) / (g.length : ℚ))

/-- Python `max` over a nonempty list of rationals (`none` on the empty list,
where Python raises `ValueError`). -/
def listMaxQ : List ℚ → Option ℚ
  | [] => none
  | h :: t => some (t.foldl max h)

/-- `STATUS_TO_SYMBOL` (`state_graph.py:25-26`). -/
def STATUS_TO_SYMBOL : JobStatus → Char
  | .UNKNOWN => ' '
  | .IDLE => 'I'
  | .RUNNING => 'R'
  | .REMOVED => 'X'
  | .COMPLETED => 'C'
  | .HELD => 'H'
  | .SUSPENDED => 'S'

/-- `SYMBOL_TO_COLOR` (`state_graph.py:28-29`) composed with click's
foreground color codes (black 30, red 31, green 32, yellow 33, blue 34,
magenta 35); only the seven symbols ever occur. -/
def SYMBOL_TO_COLOR_CODE (c : Char) : ℕ :=
  if c = ' ' then 30
  else if c = 'I' then 33
  else if c = 'R' then 34
  else if c = 'X' then 35
  else if c = 'C' then 32
  else if c = 'H' then 31
  else if c = 'S' then 35
  else 30

/-- `click.style(text, fg=color)`: wrap in ANSI escape codes with a reset. -/
def ansiStyle (code : ℕ) (text : String) : String :=
  "\x1b[" ++ toString code ++ "m" ++ text ++ "\x1b[0m"

/-- Run-length encoding of a row (`itertools.groupby`). -/
def rle : List Char → List (Char × ℕ)
  | [] => []
  | c :: rest =>
    match rle rest with
    | (c2, n) :: t => if c = c2 then (c, n + 1) :: t else (c, 1) :: (c2, n) :: t
    | [] => [(c, 1)]

/-- One rendered column (`state_graph.py:144-148`): each status's symbol
repeated `bar_lens[status]` times, in enumeration order (Python's `str * n`
gives the empty string for `n <= 0`). -/
def renderColumn (bar : JobStatus → ℤ) : List Char :=
  (JobStatus.all.map (fun s => List.replicate (bar s).toNat (STATUS_TO_SYMBOL s))).flatten

/-- The column loop of `histogram` (`state_graph.py:137-148`): a `None` sample
repeats the previous column (`IndexError` if there is none), otherwise the
column is rendered from the partition. -/
def buildColumns (cs : List (Option QCounts)) (maxJobs : ℚ) (height : ℤ) :
    Except Err (List (List Char)) :=
  cs.foldlM
    (fun cols oc =>
      match oc with
      | none =>
        match cols.getLast? with
        | none => .error .indexError
        | some prev => .ok (cols ++ [prev])
      | some c => do
        let bar ← calculate_column_partition c maxJobs height
        .ok (cols ++ [renderColumn bar]))
    []

/-- `itertools.zip_longest(*columns, fillvalue=" ")` mapped to lists:
one row per position up to the longest column. -/
def zipLongestRows (cols : List (List Char)) : List (List Char) :=
  let maxLen := (cols.map List.length).foldl max 0
  (List.range maxLen).map (fun r => cols.map (fun col => col.getD r ' '))

/-- Colorize one row (`state_graph.py:153-159`): run-length encode and emit a
styled block glyph run per group. -/
def styleRow (row : List Char) : String :=
  String.join ((rle row).map
    (fun p => ansiStyle (SYMBOL_TO_COLOR_CODE p.1) (String.mk (List.replicate p.2 '█'))))

/-- `histogram` (`state_graph.py:127-161`).  Failure modes, in source order:
indexing `counts_over_time[0]` of an empty list; `dt` division by a zero
`width`; `counts[0] = groups[0][-1][1]` when `counts` is empty (negative
width) or when the first group is empty; `max()` on an empty sequence; and the
partition's division by a zero `max_jobs`. -/
def histogram (cot : List TimelinePoint) (width height : ℤ) : Except Err String :=
  match cot with
  | [] => .error .emptyInput
  | _ :: _ =>
    if width = 0 then .error .zeroDivision
    else
      let lastCounts : Counts := ((cot.getLast?).map Prod.snd).getD (fun _ => 0)
      let groups := group_counts_by_time cot width
      let counts0 := groups.map avg_counts
      match groups.head? with
      | none => .error .indexError
      | some g0 =>
        match g0.getLast? with
        | none => .error .indexError
        | some pLast =>
          let counts1 := counts0.set 0 (some (toQCounts pLast.2))
          let counts2 := counts1.set (counts1.length - 1) (some (toQCounts lastCounts))
          match listMaxQ ((counts2.filterMap id).map totalQ) with
          | none => .error .valueError
          | some maxJobs => do
            let cols ← buildColumns counts2 maxJobs height
            .ok (String.intercalate "\n" (((zipLongestRows cols).reverse).map styleRow))

/-- Python `str.splitlines` restricted to the strings produced here (no
trailing newline, `\n` separators only): empty list for the empty string. -/
def pySplitlines (s : String) : List String :=
  if s = "" then [] else s.splitOn "\n"

/-- `str.ljust(w)` (noop when `w` does not exceed the length). -/
def pyLjust (s : String) (w : ℤ) : String :=
  s ++ String.mk (List.replicate (w - (s.length : ℤ)).toNat ' ')

/-- `str.rjust(w)`. -/
def pyRjust (s : String) (w : ℤ) : String :=
  String.mk (List.replicate (w - (s.length : ℤ)).toNat ' ') ++ s

/-- `str.center(w)` with CPython's padding split
(`left = marg // 2 + (marg & w & 1)`). -/
def pyCenter (s : String) (w : ℤ) : String :=
  if w ≤ (s.length : ℤ) then s
  else
    let wn := w.toNat
    let marg := wn - s.length
    let left := marg / 2 + (marg &&& wn &&& 1)
    String.mk (List.replicate left ' ') ++ s ++ String.mk (List.replicate (marg - left) ' ')

/-- Two-digit zero padding for a calendar field. -/
def pad2 (n : ℤ) : String :=
  if 0 ≤ n ∧ n < 10 then "0" ++ toString n else toString n

/-- Civil date from days since the Unix epoch (standard proleptic Gregorian
conversion), giving `(year, month, day)`. -/
def civilFromDays (z0 : ℤ) : ℤ × ℤ × ℤ :=
  let z := z0 + 719468
  let era := z.fdiv 146097
  let doe := z - era * 146097
  let yoe := (doe - doe / 1460 + doe / 36524 - doe / 146096) / 365
  let y := yoe + era * 400
  let doy := doe - (365 * yoe + yoe / 4 - yoe / 100)
  let mp := (5 * doy + 2) / 153
  let d := doy - (153 * mp + 2) / 5 + 1
  let m := mp + (if mp < 10 then (3 : ℤ) else -9)
  (y + (if m ≤ 2 then 1 else 0), m, d)

/-- Models `datetime.datetime.fromtimestamp(t).strftime("%y-%m-%d %H:%M:%S")`
at a fixed (UTC) timezone: the local-timezone dependency of the stdlib call is
outside the embedded engine. -/
def formatTimestamp (t : ℚ) : String :=
  let z : ℤ := ⌊t⌋
  let days := z.fdiv 86400
  let secOfDay := z.emod 86400
  let ymd := civilFromDays days
  pad2 (ymd.1.emod 100) ++ "-" ++ pad2 ymd.2.1 ++ "-" ++ pad2 ymd.2.2 ++ " " ++
    pad2 (secOfDay / 3600) ++ ":" ++ pad2 (secOfDay / 60 % 60) ++ ":" ++ pad2 (secOfDay % 60)

/-- `make_state_graph` (`state_graph.py:46-111`) as a function of the event
sequence and the terminal size reported by `shutil.get_terminal_size` (the
only environment inputs): runs the event loop, renders the histogram on a
`(columns - 10) × (lines - 10)` canvas, and assembles borders, the time axis
and the left margin. -/
def make_state_graph (events : List Event) (termColumns termLines : ℤ) : Except Err String :=
  let st := runTrack events
  let cot := st.counts_over_time
  let width := termColumns - 10
  let height := termLines - 10
  match histogram cot width height with
  | .error e => .error e
  | .ok graph =>
    let rows0 := (pySplitlines graph).map (fun row => "│" ++ row)
    let rows1 := rows0 ++ ["└" ++ String.mk (List.replicate width.toNat '─')]
    let leftDate := pyLjust (formatTimestamp (firstTime cot)) (width + 1)
    let rightDate := pyRjust (formatTimestamp (lastTime cot)) (width + 1)
    let timeStr := pyCenter "Time" (width + 1)
    match merge_strings [leftDate, rightDate, timeStr] with
    | none => .error .valueError
    | some merged =>
      let rows2 := rows1 ++ [merged]
      match listMaxZ ((cot.map (fun p => totalCounts p.2))), cot with
      | _, [] => .error .valueError
      | maxJobs, _ :: _ =>
        let extraLen : ℕ := max (toString maxJobs).length ("# Jobs".length)
        let n := rows2.length
        .ok (String.intercalate "\n" ((rows2.enum).map (fun p =>
          if p.1 = 0 then pyRjust (toString maxJobs) (extraLen : ℤ) ++ p.2
          else if p.1 = n - 2 then pyRjust "0" (extraLen : ℤ) ++ p.2
          else if p.1 = n / 2 then pyRjust "# Jobs" (extraLen : ℤ) ++ p.2
          else String.mk (List.replicate extraLen ' ') ++ p.2)))

/-- The all-zero counter. -/
def zeroCounts : Counts := fun _ => 0

/-- A single SUBMIT event at `t = 0` for job `(1, 0)` (the spec's test input). -/
def submitEvent : Event := { timestamp := 0, cluster := 1, proc := 0, type := .SUBMIT }

/-- An event whose kind is absent from the transition table. -/
def imageSizeEvent : Event := { timestamp := 5, cluster := 1, proc := 0, type := .IMAGE_SIZE }

/-- Two-point timeline with all-zero counters (two unrecognized events): the
max total over its samples is zero. -/
def zeroCot : List TimelinePoint := [(0, zeroCounts), (1, zeroCounts)]

/-- Concrete two-point timeline for the C3 witness. -/
def ptsW3 : List TimelinePoint := [(0, zeroCounts), (1, zeroCounts)]

theorem intEntry_eq_halfUp_add_carryOf (e : ℚ) : intEntry e = halfUp e + carryOf e := by
  unfold intEntry carryOf halfUp
  split_ifs with h1 h2 h3 <;> simp_all

theorem sum_map_intEntry (l : List ℚ) :
    (l.map intEntry).sum = (l.map halfUp).sum + (l.map carryOf).sum := by
  induction l with
  | nil => simp
  | cons h t ih => simp [ih, intEntry_eq_halfUp_add_carryOf]; ring

theorem foldl_max_mem (t : List ℤ) (h : ℤ) : t.foldl max h ∈ h :: t := by
  induction t generalizing h with
  | nil => simp
  | cons a t ih =>
    simp only [List.foldl_cons]
    rcases max_choice h a with hm | hm <;> rw [hm]
    · rcases List.mem_cons.mp (ih h) with h1 | h1
      · simp [h1]
      · exact List.mem_cons_of_mem _ (List.mem_cons_of_mem _ h1)
    · rcases List.mem_cons.mp (ih a) with h1 | h1
      · simp [h1]
      · exact List.mem_cons_of_mem _ (List.mem_cons_of_mem _ h1)

theorem listMaxZ_mem (l : List ℤ) (hl : l ≠ []) : listMaxZ l ∈ l := by
  cases l with
  | nil => exact absurd rfl hl
  | cons h t => exact foldl_max_mem t h

theorem firstIdxOf_lt_length (a : ℤ) (l : List ℤ) (h : a ∈ l) : firstIdxOf a l < l.length := by
  induction l with
  | nil => simp at h
  | cons x t ih =>
    unfold firstIdxOf
    split_ifs with hx
    · simp
    · have : a ∈ t := by
        rcases List.mem_cons.mp h with h1 | h1
        · exact absurd h1.symm hx
        · exact h1
      simpa using ih this

theorem sum_set_getD_sub (l : List ℤ) (i : ℕ) (c : ℤ) (h : i < l.length) :
    (l.set i (l.getD i 0 - c)).sum = l.sum - c := by
  induction l generalizing i with
  | nil => simp at h
  | cons x t ih =>
    cases i with
    | zero => simp; ring
    | succ j =>
      simp only [List.set_cons_succ, List.getD_cons_succ, List.sum_cons]
      rw [ih j (by simpa using h)]
      ring

theorem rawList_length (c : QCounts) (m : ℚ) (h : ℤ) : (rawList c m h).length = 7 := by
  simp [rawList, JobStatus.all]

theorem intSplit_length (c : QCounts) (m : ℚ) (h : ℤ) : (intSplit c m h).length = 7 := by
  simp [intSplit, rawList_length]

theorem partitionList_length (c : QCounts) (m : ℚ) (h : ℤ) :
    (partitionList c m h).length = 7 := by
  simp [partitionList, intSplit_length]

theorem sum_getD_seven (l : List ℤ) (h : l.length = 7) :
    (JobStatus.all.map (fun s => l.getD s.idx 0)).sum = l.sum := by
  rcases l with _ | ⟨a, l⟩
  · simp only [List.length_nil] at h
    omega
  rcases l with _ | ⟨b, l⟩
  · simp only [List.length_cons, List.length_nil] at h
    omega
  rcases l with _ | ⟨c, l⟩
  · simp only [List.length_cons, List.length_nil] at h
    omega
  rcases l with _ | ⟨d, l⟩
  · simp only [List.length_cons, List.length_nil] at h
    omega
  rcases l with _ | ⟨e, l⟩
  · simp only [List.length_cons, List.length_nil] at h
    omega
  rcases l with _ | ⟨f, l⟩
  · simp only [List.length_cons, List.length_nil] at h
    omega
  rcases l with _ | ⟨g, l⟩
  · simp only [List.length_cons, List.length_nil] at h
    omega
  rcases l with _ | ⟨x, l⟩
  · simp [JobStatus.all, JobStatus.idx]
  · simp only [List.length_cons] at h
    omega

theorem rowSum_partitionCore (c : QCounts) (m : ℚ) (h : ℤ) :
    rowSum (partitionCore c m h) = (partitionList c m h).sum := by
  unfold rowSum partitionCore
  exact sum_getD_seven _ (partitionList_length c m h)

theorem absorbIdx_lt (c : QCounts) (m : ℚ) (h : ℤ) :
    absorbIdx c m h < (intSplit c m h).length := by
  apply firstIdxOf_lt_length
  apply listMaxZ_mem
  intro hnil
  have := intSplit_length c m h
  rw [hnil] at this
  simp at this

theorem partitionList_sum (c : QCounts) (m : ℚ) (h : ℤ) :
    (partitionList c m h).sum = (intSplit c m h).sum - carryTotal c m h := by
  unfold partitionList
  exact sum_set_getD_sub _ _ _ (absorbIdx_lt c m h)

theorem partition_ok (c : QCounts) (m : ℚ) (h : ℤ) (hm : m ≠ 0) :
    calculate_column_partition c m h = .ok (partitionCore c m h) := by
  simp [calculate_column_partition, hm]

/-- C1: For every sample with `sum(sample) > 0`, `maxTotal > 0` and height `H`,
the claim says the partition's row heights sum to exactly `H`.  This is false
on the code (see the counterexample); the amended statement proved here: the
row heights always sum to the total of the half-up roundings of the raw
allocations `count[s] / maxTotal * H` (the visibility carry and its
subtraction cancel), which need not equal `H`. -/
theorem C1_partition_sum_eq_halfUp (counts : QCounts) (maxJobs : ℚ) (height : ℤ)
    (hm : maxJobs ≠ 0) :
    calculate_column_partition counts maxJobs height = .ok (partitionCore counts maxJobs height)
    ∧ rowSum (partitionCore counts maxJobs height)
      = (JobStatus.all.map (fun s => halfUp (counts s / maxJobs * (height : ℚ)))).sum := by
  refine ⟨partition_ok counts maxJobs height hm, ?_⟩
  rw [rowSum_partitionCore, partitionList_sum]
  unfold intSplit carryTotal
  rw [sum_map_intEntry]
  have : JobStatus.all.map (fun s => halfUp (counts s / maxJobs * (height : ℚ)))
      = (rawList counts maxJobs height).map halfUp := by
    simp [rawList, List.map_map, Function.comp]
  rw [this]
  ring

/-- C1 witness: the partition of `{Idle: 1, Running: 9}` with `maxTotal = 10`,
`H = 10` (the spec's own exact example). -/
theorem C1_partition_sum_eq_halfUp_witness :
    calculate_column_partition wC1 10 10 = .ok (partitionCore wC1 10 10)
    ∧ rowSum (partitionCore wC1 10 10)
      = (JobStatus.all.map (fun s => halfUp (wC1 s / 10 * ((10 : ℤ) : ℚ)))).sum :=
  C1_partition_sum_eq_halfUp wC1 10 10 (by norm_num)

/-- C1 counterexample: the sample `{Idle: 1, Running: 1}` with `maxTotal = 2`
and `H = 5` has positive total and positive `maxTotal`, yet its partitioned
row heights sum to 6, not `H = 5` (both raw entries are 2.5 and round half
up). -/
theorem C1_sum_neq_height_cex :
    (0 : ℚ) < totalQ cexC1 ∧ (0 : ℚ) < 2
    ∧ calculate_column_partition cexC1 2 5 = .ok (partitionCore cexC1 2 5)
    ∧ rowSum (partitionCore cexC1 2 5) = 6 ∧ (6 : ℤ) ≠ 5 := by
  have hraw : rawList cexC1 2 5 = [0, 5/2, 5/2, 0, 0, 0, 0] := by
    norm_num [rawList, JobStatus.all, cexC1]
  have h0 : intEntry 0 = 0 := by norm_num [intEntry]
  have h52 : intEntry (5/2) = 3 := by norm_num [intEntry, Int.ceil_eq_iff]
  have c0 : carryOf 0 = 0 := by norm_num [carryOf]
  have c52 : carryOf (5/2) = 0 := by norm_num [carryOf]
  have hsplit : intSplit cexC1 2 5 = [0, 3, 3, 0, 0, 0, 0] := by
    simp only [intSplit, hraw, List.map_cons, List.map_nil, h0, h52]
  have hcarry : carryTotal cexC1 2 5 = 0 := by
    simp only [carryTotal, hraw, List.map_cons, List.map_nil, c0, c52,
      List.sum_cons, List.sum_nil]
    norm_num
  have hlist : partitionList cexC1 2 5 = [0, 3, 3, 0, 0, 0, 0] := by
    unfold partitionList absorbIdx
    rw [hsplit, hcarry]
    decide
  refine ⟨by norm_num [totalQ, JobStatus.all, cexC1], by norm_num,
    partition_ok _ _ _ (by norm_num), ?_, by norm_num⟩
  unfold rowSum partitionCore
  rw [hlist]
  decide

theorem getD_set_ne {α : Type} (l : List α) (i j : ℕ) (v d : α) (hij : i ≠ j) :
    (l.set i v).getD j d = l.getD j d := by
  induction l generalizing i j with
  | nil => simp
  | cons x t ih =>
    cases i with
    | zero =>
      cases j with
      | zero => exact absurd rfl hij
      | succ j2 => simp
    | succ i2 =>
      cases j with
      | zero => simp
      | succ j2 => simpa using ih i2 j2 (by omega)

theorem getD_map_all {α : Type} [Inhabited α] (f : JobStatus → α) (s : JobStatus) (d : α) :
    (JobStatus.all.map f).getD s.idx d = f s := by
  cases s <;> rfl

theorem intEntry_ge_one (e : ℚ) (he : 0 < e) : 1 ≤ intEntry e := by
  unfold intEntry
  split_ifs with h1 h2 h3
  · exact absurd h1 (ne_of_gt he)
  · exact Int.ceil_pos.mpr he
  · omega
  · have hf : 0 ≤ ⌊e⌋ := Int.floor_nonneg.mpr he.le
    omega

theorem intEntry_nonneg (e : ℚ) (he : 0 ≤ e) : 0 ≤ intEntry e := by
  unfold intEntry
  split_ifs with h1 h2 h3
  · omega
  · exact Int.ceil_nonneg he
  · omega
  · exact Int.floor_nonneg.mpr he

theorem partitionCore_outside_absorber (c : QCounts) (m : ℚ) (h : ℤ) (s : JobStatus)
    (hs : s.idx ≠ absorbIdx c m h) :
    partitionCore c m h s = intEntry (c s / m * (h : ℚ)) := by
  unfold partitionCore partitionList
  rw [getD_set_ne _ _ _ _ _ (fun heq => hs heq.symm)]
  have : intSplit c m h = JobStatus.all.map (fun s2 => intEntry (c s2 / m * (h : ℚ))) := by
    simp [intSplit, rawList, List.map_map, Function.comp]
  rw [this, getD_map_all]

/-- C2: the claim says every status with `count > 0` gets at least one row
(and hence all row heights are non-negative).  This fails for the status that
absorbs the carry (see the counterexample); the amended statement proved here:
under `maxTotal > 0`, `H > 0` and a non-negative sample, every status other
than the carry-absorbing one (the first status holding the maximal pre-carry
allocation) has a non-negative row height, and at least one row whenever its
count is positive. -/
theorem C2_visibility_outside_absorber (counts : QCounts) (maxJobs : ℚ) (height : ℤ)
    (hm : 0 < maxJobs) (hh : 0 < height) (hc : ∀ s, 0 ≤ counts s) :
    calculate_column_partition counts maxJobs height = .ok (partitionCore counts maxJobs height)
    ∧ ∀ s : JobStatus, s.idx ≠ absorbIdx counts maxJobs height →
        0 ≤ partitionCore counts maxJobs height s
        ∧ (0 < counts s → 1 ≤ partitionCore counts maxJobs height s) := by
  refine ⟨partition_ok counts maxJobs height (ne_of_gt hm), fun s hs => ?_⟩
  rw [partitionCore_outside_absorber counts maxJobs height s hs]
  have hcast : (0 : ℚ) < (height : ℚ) := by exact_mod_cast hh
  constructor
  · exact intEntry_nonneg _ (mul_nonneg (div_nonneg (hc s) hm.le) hcast.le)
  · intro hpos
    exact intEntry_ge_one _ (mul_pos (div_pos hpos hm) hcast)

/-- C2 witness: in the partition of `{Idle: 1, Running: 9}` with
`maxTotal = 10`, `H = 10`, the Idle status (count 1, not the absorber) gets at
least one row. -/
theorem C2_visibility_outside_absorber_witness :
    calculate_column_partition wC1 10 10 = .ok (partitionCore wC1 10 10)
    ∧ 1 ≤ partitionCore wC1 10 10 JobStatus.IDLE := by
  have hraw : rawList wC1 10 10 = [0, 1, 9, 0, 0, 0, 0] := by
    norm_num [rawList, JobStatus.all, wC1]
  have h0 : intEntry 0 = 0 := by norm_num [intEntry]
  have h1 : intEntry 1 = 1 := by norm_num [intEntry]
  have h9 : intEntry 9 = 9 := by norm_num [intEntry]
  have habs : absorbIdx wC1 10 10 = 2 := by
    have hsplit : intSplit wC1 10 10 = [0, 1, 9, 0, 0, 0, 0] := by
      simp only [intSplit, hraw, List.map_cons, List.map_nil, h0, h1, h9]
    unfold absorbIdx
    rw [hsplit]
    decide
  have h := C2_visibility_outside_absorber wC1 10 10 (by norm_num) (by norm_num)
    (by intro s; cases s <;> norm_num [wC1])
  refine ⟨h.1, (h.2 JobStatus.IDLE ?_).2 (by norm_num [wC1])⟩
  rw [habs]
  decide

/-- C2 counterexample: the sample `{Idle: 1, Running: 1, Removed: 1}` with
`maxTotal = 100 > 0` and `H = 10`: all three raw entries are 0.1 and get
forced to one row with carry 3; the Idle status is the first maximal entry and
absorbs the carry, ending at `1 - 3 = -2` rows — negative, and below 1 even
though its count is positive. -/
theorem C2_negative_row_cex :
    (0 : ℚ) < 100 ∧ (0 : ℚ) < cexC2 JobStatus.IDLE
    ∧ calculate_column_partition cexC2 100 10 = .ok (partitionCore cexC2 100 10)
    ∧ partitionCore cexC2 100 10 JobStatus.IDLE = -2 := by
  have hraw : rawList cexC2 100 10 = [0, 1/10, 1/10, 1/10, 0, 0, 0] := by
    norm_num [rawList, JobStatus.all, cexC2]
  have h0 : intEntry 0 = 0 := by norm_num [intEntry]
  have h110 : intEntry (1/10) = 1 := by norm_num [intEntry]
  have c0 : carryOf 0 = 0 := by norm_num [carryOf]
  have c110 : carryOf (1/10) = 1 := by norm_num [carryOf]
  have hsplit : intSplit cexC2 100 10 = [0, 1, 1, 1, 0, 0, 0] := by
    simp only [intSplit, hraw, List.map_cons, List.map_nil, h0, h110]
  have hcarry : carryTotal cexC2 100 10 = 3 := by
    simp only [carryTotal, hraw, List.map_cons, List.map_nil, c0, c110,
      List.sum_cons, List.sum_nil]
    norm_num
  have hlist : partitionList cexC2 100 10 = [0, -2, 1, 1, 0, 0, 0] := by
    unfold partitionList absorbIdx
    rw [hsplit, hcarry]
    decide
  refine ⟨by norm_num, by norm_num [cexC2], partition_ok _ _ _ (by norm_num), ?_⟩
  unfold partitionCore
  rw [hlist]
  decide

theorem group_aux_zero (cot : List TimelinePoint) (first dt : ℚ) (n left : ℕ) :
    group_aux cot first dt 0 n left = [] := rfl

theorem group_aux_succ (cot : List TimelinePoint) (first dt : ℚ) (m n left : ℕ) :
    group_aux cot first dt (m + 1) n left
      = (cot.drop left).take
          (scanIdx (cot.drop left) left (first + n * dt + dt) left - left)
        :: group_aux cot first dt m (n + 1)
          (scanIdx (cot.drop left) left (first + n * dt + dt) left) := rfl

theorem scan_ge (l : List TimelinePoint) (i : ℕ) (rt : ℚ) (r0 : ℕ) :
    min r0 i ≤ scanIdx l i rt r0 := by
  induction l generalizing i r0 with
  | nil =>
    simp only [scanIdx]
    exact min_le_left r0 i
  | cons p rest ih =>
    simp only [scanIdx]
    split_ifs
    · exact min_le_right r0 i
    · have h2 := ih (i + 1) i
      omega

theorem scan_ub (l : List TimelinePoint) (i : ℕ) (rt : ℚ) (r0 : ℕ) :
    scanIdx l i rt r0 ≤ max r0 (i + l.length - 1) := by
  induction l generalizing i r0 with
  | nil =>
    simp only [scanIdx, List.length_nil]
    omega
  | cons p rest ih =>
    simp only [scanIdx, List.length_cons]
    split_ifs
    · omega
    · have h2 := ih (i + 1) i
      omega

theorem scan_nobreak (l : List TimelinePoint) (i : ℕ) (rt : ℚ) (r0 : ℕ)
    (hne : l ≠ []) (hall : ∀ p ∈ l, p.1 ≤ rt) :
    scanIdx l i rt r0 = i + l.length - 1 := by
  induction l generalizing i r0 with
  | nil => exact absurd rfl hne
  | cons p rest ih =>
    have hp : ¬ p.1 > rt := not_lt.mpr (hall p (List.mem_cons_self p rest))
    simp only [scanIdx, List.length_cons, if_neg hp]
    cases rest with
    | nil =>
      simp [scanIdx]
    | cons q rest2 =>
      have h2 := ih (i + 1) i (by simp)
        (fun x hx => hall x (List.mem_cons_of_mem p hx))
      simp only [List.length_cons] at h2 ⊢
      omega

theorem scan_take_le (l : List TimelinePoint) (i : ℕ) (rt : ℚ) (r0 : ℕ) :
    ∀ p ∈ l.take (scanIdx l i rt r0 - i), p.1 ≤ rt := by
  induction l generalizing i r0 with
  | nil => simp
  | cons q rest ih =>
    simp only [scanIdx]
    split_ifs with hq
    · simp
    · intro p hp
      cases hk : scanIdx rest (i + 1) rt i - i with
      | zero =>
        rw [hk] at hp
        simp at hp
      | succ k =>
        rw [hk] at hp
        simp only [List.take_succ_cons, List.mem_cons] at hp
        rcases hp with rfl | hp2
        · exact not_lt.mp hq
        · have hk2 : scanIdx rest (i + 1) rt i - (i + 1) = k := by omega
          exact ih (i + 1) i p (by rw [hk2]; exact hp2)

theorem group_aux_length (cot : List TimelinePoint) (first dt : ℚ) (m n left : ℕ) :
    (group_aux cot first dt m n left).length = m := by
  induction m generalizing n left with
  | zero => rfl
  | succ k ih =>
    rw [group_aux_succ]
    simp [ih]

theorem take_drop_dropLast (L : List TimelinePoint) (k : ℕ) (hk : k < L.length) :
    L.take k ++ (L.drop k).dropLast = L.dropLast := by
  have h1 : (L.drop k).dropLast = (L.drop k).take (L.length - 1 - k) := by
    rw [List.dropLast_eq_take, List.length_drop]
    congr 1
    omega
  rw [h1, List.dropLast_eq_take L, ← List.take_add]
  congr 1
  omega

theorem group_aux_flatten (cot : List TimelinePoint) (first dt : ℚ) (m n left : ℕ)
    (hm : 1 ≤ m) (hleft : left < cot.length)
    (hlast : ∀ p ∈ cot.drop left, p.1 ≤ first + ((n + m : ℕ) : ℚ) * dt) :
    (group_aux cot first dt m n left).flatten = (cot.drop left).dropLast := by
  induction m generalizing n left with
  | zero => omega
  | succ k ih =>
    have hDlen : (cot.drop left).length = cot.length - left := List.length_drop left cot
    have hDne : cot.drop left ≠ [] := by
      intro hnil
      rw [hnil] at hDlen
      simp only [List.length_nil] at hDlen
      omega
    rcases Nat.eq_zero_or_pos k with hk | hk
    · subst hk
      have hbound : ∀ p ∈ cot.drop left, p.1 ≤ first + n * dt + dt := by
        intro p hp
        have h := hlast p hp
        have he : first + ((n + 1 : ℕ) : ℚ) * dt = first + (n : ℚ) * dt + dt := by
          push_cast
          ring
        rw [he] at h
        exact h
      rw [group_aux_succ, group_aux_zero,
        scan_nobreak (cot.drop left) left (first + n * dt + dt) left hDne hbound]
      have harg : left + (cot.drop left).length - 1 - left = (cot.drop left).length - 1 := by
        omega
      rw [harg]
      simp only [List.flatten_cons, List.flatten_nil, List.append_nil]
      rw [List.dropLast_eq_take]
    · set rt := first + n * dt + dt with hrt
      set r := scanIdx (cot.drop left) left rt left with hr
      have hr_ge : left ≤ r := by
        have := scan_ge (cot.drop left) left rt left
        omega
      have hr_lt : r < cot.length := by
        have := scan_ub (cot.drop left) left rt left
        omega
      have hsub : ∀ p ∈ cot.drop r, p ∈ cot.drop left := by
        intro p hp
        have hdd : (cot.drop left).drop (r - left) = cot.drop r := by
          rw [List.drop_drop]
          congr 1
          omega
        rw [← hdd] at hp
        exact List.drop_subset _ _ hp
      have hlast2 : ∀ p ∈ cot.drop r, p.1 ≤ first + ((n + 1 + k : ℕ) : ℚ) * dt := by
        intro p hp
        have heq : n + 1 + k = n + (k + 1) := by omega
        rw [heq]
        exact hlast p (hsub p hp)
      rw [group_aux_succ, ← hrt, ← hr]
      simp only [List.flatten_cons]
      rw [ih (n + 1) r hk hr_lt hlast2]
      have hdd : cot.drop r = (cot.drop left).drop (r - left) := by
        rw [List.drop_drop]
        congr 1
        omega
      rw [hdd]
      exact take_drop_dropLast (cot.drop left) (r - left) (by omega)

theorem group_aux_window_bound (cot : List TimelinePoint) (first dt : ℚ)
    (m n left i : ℕ) (w : List TimelinePoint)
    (hw : (group_aux cot first dt m n left).get? i = some w) :
    ∀ p ∈ w, p.1 ≤ first + ((n + i : ℕ) : ℚ) * dt + dt := by
  induction m generalizing n left i with
  | zero => simp [group_aux_zero] at hw
  | succ k ih =>
    rw [group_aux_succ] at hw
    cases i with
    | zero =>
      simp only [List.get?_cons_zero, Option.some_inj] at hw
      subst hw
      intro p hp
      have h := scan_take_le (cot.drop left) left (first + n * dt + dt) left p hp
      simpa using h
    | succ j =>
      simp only [List.get?_cons_succ] at hw
      have h := ih (n + 1) _ j hw
      intro p hp
      have heq : ((n + 1 + j : ℕ) : ℚ) = ((n + (j + 1) : ℕ) : ℚ) := by
        push_cast
        ring
      have := h p hp
      rw [heq] at this
      exact this

theorem chain_le_lastTime (pts : List TimelinePoint)
    (h : List.Chain' (fun p q : TimelinePoint => p.1 ≤ q.1) pts) :
    ∀ p ∈ pts, p.1 ≤ lastTime pts := by
  induction pts with
  | nil => simp
  | cons a t ih =>
    cases t with
    | nil =>
      intro p hp
      simp only [List.mem_singleton] at hp
      subst hp
      simp [lastTime]
    | cons b t2 =>
      have hab : a.1 ≤ b.1 := (List.chain'_cons.mp h).1
      have ht : List.Chain' (fun p q : TimelinePoint => p.1 ≤ q.1) (b :: t2) :=
        (List.chain'_cons.mp h).2
      have hlast_eq : lastTime (a :: b :: t2) = lastTime (b :: t2) := by
        simp [lastTime]
      intro p hp
      rcases List.mem_cons.mp hp with rfl | hp2
      · rw [hlast_eq]
        exact hab.trans (ih ht b (List.mem_cons_self b t2))
      · rw [hlast_eq]
        exact ih ht p hp2

theorem group_counts_eq (pts : List TimelinePoint) (W : ℤ) (hne : pts ≠ []) :
    group_counts_by_time pts W
      = group_aux pts (firstTime pts) (windowWidth pts W) W.toNat 0 0 := by
  cases pts with
  | nil => exact absurd rfl hne
  | cons a t => rfl

theorem dropLast_drop_swap (l : List TimelinePoint) (k : ℕ) :
    l.dropLast.drop k = (l.drop k).dropLast := by
  rw [List.dropLast_eq_take, List.dropLast_eq_take, List.length_drop,
    List.drop_take (l.length - 1) k l]
  congr 1
  omega

theorem scan_slice_takeWhile (l : List TimelinePoint) (i : ℕ) (rt : ℚ) :
    l.take (scanIdx l i rt i - i)
      = l.dropLast.takeWhile (fun x => decide (x.1 ≤ rt)) := by
  induction l generalizing i with
  | nil => simp
  | cons p rest ih =>
    simp only [scanIdx]
    by_cases hp : p.1 > rt
    · rw [if_pos hp, Nat.sub_self, List.take_zero]
      cases rest with
      | nil => simp
      | cons q rest2 =>
        rw [show (p :: q :: rest2).dropLast = p :: (q :: rest2).dropLast from rfl,
          List.takeWhile_cons_of_neg]
        simp only [decide_eq_true_eq, not_le]
        exact hp
    · rw [if_neg hp]
      cases rest with
      | nil =>
        rw [show scanIdx [] (i + 1) rt i = i from rfl, Nat.sub_self, List.take_zero]
        simp
      | cons q rest2 =>
        have hr0 : scanIdx (q :: rest2) (i + 1) rt i
            = scanIdx (q :: rest2) (i + 1) rt (i + 1) := rfl
        have hge : i + 1 ≤ scanIdx (q :: rest2) (i + 1) rt i := by
          have hmin := scan_ge (q :: rest2) (i + 1) rt (i + 1)
          omega
        have hsub : scanIdx (q :: rest2) (i + 1) rt i - i
            = (scanIdx (q :: rest2) (i + 1) rt i - (i + 1)) + 1 := by omega
        rw [hsub, List.take_succ_cons,
          show (p :: q :: rest2).dropLast = p :: (q :: rest2).dropLast from rfl,
          @List.takeWhile_cons_of_pos _ (fun x => decide (x.1 ≤ rt)) p
            ((q :: rest2).dropLast) (decide_eq_true (not_lt.mp hp))]
        congr 1
        rw [hr0]
        exact ih (i + 1)

theorem group_aux_window_exact (cot : List TimelinePoint) (first dt : ℚ) :
    ∀ (m n left i : ℕ) (w : List TimelinePoint), left < cot.length →
      (group_aux cot first dt m n left).get? i = some w →
      w = ((cot.dropLast).drop
            (left + (((group_aux cot first dt m n left).take i).flatten).length)).takeWhile
          (fun x => decide (x.1 ≤ first + ((n + i : ℕ) : ℚ) * dt + dt)) := by
  intro m
  induction m with
  | zero =>
    intro n left i w _ hw
    simp [group_aux_zero] at hw
  | succ k ih =>
    intro n left i w hleft hw
    rw [group_aux_succ] at hw
    cases i with
    | zero =>
      simp only [List.get?_cons_zero, Option.some_inj] at hw
      subst hw
      simp only [List.take_zero, List.flatten_nil, List.length_nil, Nat.add_zero]
      rw [dropLast_drop_swap]
      exact scan_slice_takeWhile (cot.drop left) left (first + (n : ℚ) * dt + dt)
    | succ j =>
      simp only [List.get?_cons_succ] at hw
      have hDlen : (cot.drop left).length = cot.length - left := List.length_drop left cot
      have hr_ge : left ≤ scanIdx (cot.drop left) left (first + (n : ℚ) * dt + dt) left := by
        have hmin := scan_ge (cot.drop left) left (first + (n : ℚ) * dt + dt) left
        omega
      have hr_le : scanIdx (cot.drop left) left (first + (n : ℚ) * dt + dt) left
          ≤ cot.length - 1 := by
        have hub := scan_ub (cot.drop left) left (first + (n : ℚ) * dt + dt) left
        omega
      have hr_lt : scanIdx (cot.drop left) left (first + (n : ℚ) * dt + dt) left
          < cot.length := by omega
      have ihj := ih (n + 1) (scanIdx (cot.drop left) left (first + (n : ℚ) * dt + dt) left)
        j w hr_lt hw
      rw [group_aux_succ]
      simp only [List.take_succ_cons, List.flatten_cons, List.length_append]
      have hslice_len : ((cot.drop left).take
          (scanIdx (cot.drop left) left (first + (n : ℚ) * dt + dt) left - left)).length
          = scanIdx (cot.drop left) left (first + (n : ℚ) * dt + dt) left - left := by
        rw [List.length_take, List.length_drop]
        omega
      rw [hslice_len,
        show left + (scanIdx (cot.drop left) left (first + (n : ℚ) * dt + dt) left - left
            + (((group_aux cot first dt k (n + 1)
                (scanIdx (cot.drop left) left (first + (n : ℚ) * dt + dt) left)).take
                j).flatten).length)
          = scanIdx (cot.drop left) left (first + (n : ℚ) * dt + dt) left
            + (((group_aux cot first dt k (n + 1)
                (scanIdx (cot.drop left) left (first + (n : ℚ) * dt + dt) left)).take
                j).flatten).length from by omega,
        show ((n + (j + 1) : ℕ) : ℚ) = (((n + 1) + j : ℕ) : ℚ) from by
          congr 1
          omega]
      exact ihj

theorem chain_le_head (a : TimelinePoint) (l : List TimelinePoint)
    (h : List.Chain (fun p q : TimelinePoint => p.1 ≤ q.1) a l) :
    ∀ x ∈ l, a.1 ≤ x.1 := by
  induction l generalizing a with
  | nil => simp
  | cons b t ih =>
    have hab := (List.chain_cons.mp h).1
    have hbt := (List.chain_cons.mp h).2
    intro x hx
    rcases List.mem_cons.mp hx with rfl | hx2
    · exact hab
    · exact le_trans hab (ih b hbt x hx2)

theorem chain_le_pairwise (l : List TimelinePoint)
    (h : List.Chain' (fun p q : TimelinePoint => p.1 ≤ q.1) l) :
    l.Pairwise (fun p q : TimelinePoint => p.1 ≤ q.1) := by
  induction l with
  | nil => exact List.Pairwise.nil
  | cons a rest ih =>
    have hch : List.Chain (fun p q : TimelinePoint => p.1 ≤ q.1) a rest := h
    have hrest : List.Chain' (fun p q : TimelinePoint => p.1 ≤ q.1) rest := by
      cases rest with
      | nil => trivial
      | cons b t => exact (List.chain_cons.mp hch).2
    exact List.pairwise_cons.mpr ⟨chain_le_head a rest hch, ih hrest⟩

theorem mem_takeWhile_le (c : ℚ) (l : List TimelinePoint)
    (hpw : l.Pairwise (fun p q : TimelinePoint => p.1 ≤ q.1)) (p : TimelinePoint)
    (hp : p ∈ l) (hpc : p.1 ≤ c) :
    p ∈ l.takeWhile (fun x => decide (x.1 ≤ c)) := by
  induction l with
  | nil => simp at hp
  | cons a rest ih =>
    have ha : ∀ x ∈ rest, a.1 ≤ x.1 := (List.pairwise_cons.mp hpw).1
    have hrest := (List.pairwise_cons.mp hpw).2
    rcases List.mem_cons.mp hp with rfl | hp2
    · rw [@List.takeWhile_cons_of_pos _ (fun x => decide (x.1 ≤ c)) p rest
        (decide_eq_true hpc)]
      exact List.mem_cons_self _ _
    · rw [@List.takeWhile_cons_of_pos _ (fun x => decide (x.1 ≤ c)) a rest
        (decide_eq_true (le_trans (ha p hp2) hpc))]
      exact List.mem_cons_of_mem a (ih hrest hp2)

/-- C3: the claim says each window receives exactly the not-yet-consumed
points with timestamp at most its right bound, and that every point —
including the final one — lands in exactly one of the `W` windows.  The final
point is in fact consumed by no window (the scan index never moves past the
last list position; see the counterexample).  Amended statement, changed only
by that forced exclusion: there are exactly `W` windows; every point of a
window has timestamp at most the window's right bound `first + (i+1)*dt`;
window `i` is exactly the not-yet-consumed points — the input minus its final
point and minus the points of earlier windows — up to the last one with
timestamp not strictly greater than the right bound (a `takeWhile`, which with
ascending timestamps is exactly the set of eligible points: the completeness
conjunct makes every eligible not-yet-consumed non-final point a member); and
the windows concatenate, in order and without duplication, to the input minus
its final point. -/
theorem C3_window_assignment (pts : List TimelinePoint) (W : ℤ)
    (hne : pts ≠ []) (hasc : List.Chain' (fun p q : TimelinePoint => p.1 ≤ q.1) pts)
    (hW : 1 ≤ W) :
    (group_counts_by_time pts W).flatten = pts.dropLast
    ∧ (group_counts_by_time pts W).length = W.toNat
    ∧ (∀ i w, (group_counts_by_time pts W).get? i = some w →
        ∀ p ∈ w, p.1 ≤ firstTime pts + ((i : ℚ) + 1) * windowWidth pts W)
    ∧ (∀ i w, (group_counts_by_time pts W).get? i = some w →
        w = ((pts.dropLast).drop
              (((group_counts_by_time pts W).take i).flatten).length).takeWhile
            (fun x => decide (x.1 ≤ firstTime pts + ((i : ℚ) + 1) * windowWidth pts W)))
    ∧ (∀ i w, (group_counts_by_time pts W).get? i = some w →
        ∀ p ∈ (pts.dropLast).drop (((group_counts_by_time pts W).take i).flatten).length,
          p.1 ≤ firstTime pts + ((i : ℚ) + 1) * windowWidth pts W → p ∈ w) := by
  have hWq : ((W.toNat : ℕ) : ℚ) = (W : ℚ) := by
    have h1 : (W.toNat : ℤ) = W := Int.toNat_of_nonneg (by omega)
    exact_mod_cast congrArg (fun z : ℤ => (z : ℚ)) h1
  have hWne : (W : ℚ) ≠ 0 := by
    have : W ≠ 0 := by omega
    exact_mod_cast this
  have hlen : 0 < pts.length := List.length_pos.mpr hne
  have hsum : firstTime pts + ((0 + W.toNat : ℕ) : ℚ) * windowWidth pts W = lastTime pts := by
    simp only [Nat.zero_add]
    rw [hWq, windowWidth]
    field_simp
  have hexact : ∀ i w, (group_counts_by_time pts W).get? i = some w →
      w = ((pts.dropLast).drop
            (((group_counts_by_time pts W).take i).flatten).length).takeWhile
          (fun x => decide (x.1 ≤ firstTime pts + ((i : ℚ) + 1) * windowWidth pts W)) := by
    intro i w hw
    rw [group_counts_eq pts W hne] at hw ⊢
    have h := group_aux_window_exact pts (firstTime pts) (windowWidth pts W)
      W.toNat 0 0 i w hlen hw
    have hbq : firstTime pts + ((0 + i : ℕ) : ℚ) * windowWidth pts W + windowWidth pts W
        = firstTime pts + ((i : ℚ) + 1) * windowWidth pts W := by
      push_cast
      ring
    rw [hbq] at h
    simpa using h
  refine ⟨?_, ?_, ?_, hexact, ?_⟩
  · rw [group_counts_eq pts W hne]
    rw [group_aux_flatten pts (firstTime pts) (windowWidth pts W) W.toNat 0 0
      (by omega) hlen ?_]
    · simp
    · intro p hp
      rw [hsum]
      exact chain_le_lastTime pts hasc p (by simpa using hp)
  · rw [group_counts_eq pts W hne]
    exact group_aux_length pts _ _ _ _ _
  · intro i w hw p hp
    rw [group_counts_eq pts W hne] at hw
    have h := group_aux_window_bound pts (firstTime pts) (windowWidth pts W)
      W.toNat 0 0 i w hw p hp
    have heq : firstTime pts + ((0 + i : ℕ) : ℚ) * windowWidth pts W + windowWidth pts W
        = firstTime pts + ((i : ℚ) + 1) * windowWidth pts W := by
      push_cast
      ring
    rw [heq] at h
    exact h
  · intro i w hw p hp hpc
    rw [hexact i w hw]
    have hpw : ((pts.dropLast).drop
        (((group_counts_by_time pts W).take i).flatten).length).Pairwise
        (fun p q : TimelinePoint => p.1 ≤ q.1) :=
      ((chain_le_pairwise pts hasc).sublist (List.dropLast_sublist pts)).sublist
        (List.drop_sublist _ _)
    exact mem_takeWhile_le _ _ hpw p hp hpc

/-- C3 witness: two points at `t = 0, 1` with `W = 2`: the windows concatenate
to the input minus its final point and there are exactly two windows. -/
theorem C3_window_assignment_witness :
    (group_counts_by_time ptsW3 2).flatten = ptsW3.dropLast
    ∧ (group_counts_by_time ptsW3 2).length = (2 : ℤ).toNat := by
  have h := C3_window_assignment ptsW3 2 (by simp [ptsW3])
    (by norm_num [ptsW3, List.chain'_cons, List.chain'_singleton]) (by norm_num)
  exact ⟨h.1, h.2.1⟩

/-- C3 counterexample: a single point at `t = 0` with `W = 1`.  The point's
timestamp equals the window's right bound, so the claim assigns it to window 0;
the code instead produces one empty window — the final input point belongs to
no window. -/
theorem C3_final_point_unassigned_cex :
    group_counts_by_time [((0 : ℚ), zeroCounts)] 1 = [[]]
    ∧ ∀ w ∈ group_counts_by_time [((0 : ℚ), zeroCounts)] 1, ((0 : ℚ), zeroCounts) ∉ w := by
  have hf : firstTime [((0 : ℚ), zeroCounts)] = 0 := by norm_num [firstTime]
  have hd : windowWidth [((0 : ℚ), zeroCounts)] 1 = 0 := by
    norm_num [windowWidth, lastTime, firstTime]
  have key : group_counts_by_time [((0 : ℚ), zeroCounts)] 1 = [[]] := by
    rw [group_counts_eq _ _ (by simp), hf, hd]
    show group_aux [((0 : ℚ), zeroCounts)] 0 0 (0 + 1) 0 0 = [[]]
    rw [group_aux_succ, group_aux_zero]
    have hscan : scanIdx ([((0 : ℚ), zeroCounts)].drop 0) 0 (0 + (0 : ℕ) * 0 + 0) 0 = 0 := by
      norm_num [scanIdx]
    rw [hscan]
    simp
  refine ⟨key, ?_⟩
  rw [key]
  simp

theorem lookupAssoc_none_iff (l : List (EntityKey × JobStatus)) (k : EntityKey) :
    lookupAssoc l k = none ↔ k ∉ l.map Prod.fst := by
  induction l with
  | nil => simp [lookupAssoc]
  | cons kv t ih =>
    simp only [lookupAssoc, List.map_cons, List.mem_cons]
    split_ifs with h
    · simp [h]
    · rw [ih]
      constructor
      · exact fun hnm hor => hor.elim (fun heq => h heq.symm) hnm
      · exact fun hor hmem => hor (Or.inr hmem)

theorem lookupAssoc_some_mem (l : List (EntityKey × JobStatus)) (k : EntityKey)
    (v : JobStatus) (h : lookupAssoc l k = some v) : k ∈ l.map Prod.fst := by
  by_contra hc
  rw [(lookupAssoc_none_iff l k).mpr hc] at h
  simp at h

theorem updAssoc_map_fst (k : EntityKey) (v : JobStatus) (l : List (EntityKey × JobStatus)) :
    (updAssoc k v l).map Prod.fst
      = if k ∈ l.map Prod.fst then l.map Prod.fst else l.map Prod.fst ++ [k] := by
  induction l with
  | nil => simp [updAssoc]
  | cons kv t ih =>
    simp only [updAssoc]
    by_cases h : kv.1 = k
    · rw [if_pos h,
        if_pos (show k ∈ (kv :: t).map Prod.fst by
          rw [List.map_cons, h]
          exact List.mem_cons_self _ _)]
      simp [h]
    · rw [if_neg h, List.map_cons, List.map_cons, ih]
      by_cases h2 : k ∈ t.map Prod.fst
      · rw [if_pos h2, if_pos (List.mem_cons_of_mem kv.1 h2)]
      · rw [if_neg h2,
          if_neg (fun hc => (List.mem_cons.mp hc).elim (fun heq => h heq.symm) h2)]
        simp

theorem statusCount_cons (kv : EntityKey × JobStatus) (t : List (EntityKey × JobStatus))
    (s : JobStatus) :
    statusCount (kv :: t) s = statusCount t s + (if kv.2 = s then 1 else 0) := by
  by_cases hs : kv.2 = s
  · simp [statusCount, List.filter_cons, hs]
  · simp [statusCount, List.filter_cons, hs]

theorem statusCount_cons_int (kv : EntityKey × JobStatus) (t : List (EntityKey × JobStatus))
    (s : JobStatus) :
    (statusCount (kv :: t) s : ℤ) = (statusCount t s : ℤ) + (if kv.2 = s then 1 else 0) := by
  by_cases hs : kv.2 = s <;> simp [statusCount_cons, hs]

theorem statusCount_updAssoc_none (l : List (EntityKey × JobStatus)) (k : EntityKey)
    (v : JobStatus) (h : lookupAssoc l k = none) (s : JobStatus) :
    statusCount (updAssoc k v l) s = statusCount l s + (if v = s then 1 else 0) := by
  induction l with
  | nil =>
    rw [show updAssoc k v [] = [(k, v)] from rfl, statusCount_cons]
  | cons kv t ih =>
    rw [lookupAssoc] at h
    split_ifs at h with hk
    simp only [updAssoc, if_neg hk]
    rw [statusCount_cons, statusCount_cons, ih h]
    omega

theorem statusCount_updAssoc_some (l : List (EntityKey × JobStatus)) (k : EntityKey)
    (v os : JobStatus) (h : lookupAssoc l k = some os) (s : JobStatus) :
    (statusCount (updAssoc k v l) s : ℤ)
      = (statusCount l s : ℤ) + (if v = s then 1 else 0) - (if os = s then 1 else 0) := by
  induction l with
  | nil => simp [lookupAssoc] at h
  | cons kv t ih =>
    rw [lookupAssoc] at h
    split_ifs at h with hk
    · have hos : kv.2 = os := by simpa using h
      simp only [updAssoc, if_pos hk]
      rw [statusCount_cons_int, statusCount_cons_int, ← hos]
      by_cases h1 : v = s <;> by_cases h2 : kv.2 = s <;> simp [h1, h2]
    · simp only [updAssoc, if_neg hk]
      rw [statusCount_cons_int, statusCount_cons_int, ih h]
      by_cases h1 : v = s <;> by_cases h2 : kv.2 = s <;> by_cases h3 : os = s <;>
        simp [h1, h2, h3]

theorem sum_indicator (c : JobStatus) :
    (JobStatus.all.map (fun s => if c = s then (1 : ℤ) else 0)).sum = 1 := by
  cases c <;> decide

theorem sum_map_add_all (f g : JobStatus → ℤ) :
    (JobStatus.all.map (fun s => f s + g s)).sum
      = (JobStatus.all.map f).sum + (JobStatus.all.map g).sum := by
  simp [JobStatus.all]
  ring

theorem sum_statusCount (l : List (EntityKey × JobStatus)) :
    (JobStatus.all.map (fun s => (statusCount l s : ℤ))).sum = l.length := by
  induction l with
  | nil => simp [statusCount]
  | cons kv t ih =>
    have hpt : ∀ s : JobStatus,
        ((statusCount (kv :: t) s : ℕ) : ℤ)
          = (statusCount t s : ℤ) + (if kv.2 = s then 1 else 0) := by
      intro s
      by_cases hs : kv.2 = s <;> simp [statusCount_cons, hs]
    simp only [hpt]
    rw [sum_map_add_all, ih, sum_indicator, List.length_cons]
    push_cast
    ring

theorem ingest_timeline_len (st : TrackState) (e : Event) :
    (ingest st e).counts_over_time.length = st.counts_over_time.length + 1 := by
  cases htr : JOB_EVENT_STATUS_TRANSITIONS e.type <;> simp [ingest, htr]

theorem ingest_counts_inv (st : TrackState) (e : Event)
    (h1 : ∀ s, st.job_state_counts s = (statusCount st.job_states s : ℤ)) :
    ∀ s, (ingest st e).job_state_counts s
      = (statusCount (ingest st e).job_states s : ℤ) := by
  intro s
  have hb := h1 s
  cases htr : JOB_EVENT_STATUS_TRANSITIONS e.type with
  | none => simp [ingest, htr, h1 s]
  | some ns =>
    cases hold : lookupAssoc st.job_states (e.cluster, e.proc) with
    | none =>
      simp only [ingest, htr, hold]
      rw [statusCount_updAssoc_none st.job_states _ ns hold s]
      by_cases hs : s = ns
      · subst hs
        simp only [bump, if_pos rfl]
        rw [hb]
        push_cast
        ring
      · have hs2 : ¬ ns = s := fun hc => hs hc.symm
        simp only [bump, if_neg hs, if_neg hs2]
        rw [hb]
        push_cast
        ring
    | some old =>
      simp only [ingest, htr, hold]
      rw [statusCount_updAssoc_some st.job_states _ ns old hold s]
      simp only [bump]
      by_cases hs : s = ns <;> by_cases ho : s = old
      · subst hs
        subst ho
        simp only [if_pos rfl, if_true]
        rw [hb]
        ring
      · subst hs
        have ho2 : ¬ old = s := fun hc => ho hc.symm
        simp only [if_pos rfl, if_true, if_neg ho, if_neg ho2]
        rw [hb]
        ring
      · subst ho
        have hs2 : ¬ ns = s := fun hc => hs hc.symm
        simp only [if_pos rfl, if_true, if_neg hs, if_neg hs2]
        rw [hb]
        ring
      · have hs2 : ¬ ns = s := fun hc => hs hc.symm
        have ho2 : ¬ old = s := fun hc => ho hc.symm
        simp only [if_neg hs, if_neg ho, if_neg hs2, if_neg ho2]
        rw [hb]
        ring

theorem ingest_map_fst (st : TrackState) (e : Event) :
    (ingest st e).job_states.map Prod.fst = st.job_states.map Prod.fst
    ∨ (ingest st e).job_states.map Prod.fst
        = st.job_states.map Prod.fst ++ [(e.cluster, e.proc)] := by
  cases htr : JOB_EVENT_STATUS_TRANSITIONS e.type with
  | none => exact Or.inl (by simp [ingest, htr])
  | some ns =>
    simp only [ingest, htr]
    rw [updAssoc_map_fst]
    by_cases hmem : (e.cluster, e.proc) ∈ st.job_states.map Prod.fst
    · exact Or.inl (by rw [if_pos hmem])
    · exact Or.inr (by rw [if_neg hmem])

theorem ingest_keys_finset (st : TrackState) (e : Event) :
    ((ingest st e).job_states.map Prod.fst).toFinset
      = (st.job_states.map Prod.fst).toFinset
        ∪ (if isMapped e then {((e.cluster, e.proc) : EntityKey)} else ∅) := by
  cases htr : JOB_EVENT_STATUS_TRANSITIONS e.type with
  | none =>
    have hm : isMapped e = false := by simp [isMapped, htr]
    simp [ingest, htr, hm]
  | some ns =>
    have hm : isMapped e = true := by simp [isMapped, htr]
    simp only [ingest, htr, hm, if_pos]
    rw [updAssoc_map_fst]
    by_cases hmem : (e.cluster, e.proc) ∈ st.job_states.map Prod.fst
    · rw [if_pos hmem, Finset.union_comm, ← Finset.insert_eq,
        Finset.insert_eq_self.mpr (List.mem_toFinset.mpr hmem)]
    · rw [if_neg hmem]
      simp [Finset.union_comm, Finset.insert_eq]

theorem ingest_nodup (st : TrackState) (e : Event)
    (h : (st.job_states.map Prod.fst).Nodup) :
    ((ingest st e).job_states.map Prod.fst).Nodup := by
  cases htr : JOB_EVENT_STATUS_TRANSITIONS e.type with
  | none => simpa [ingest, htr] using h
  | some ns =>
    simp only [ingest, htr]
    rw [updAssoc_map_fst]
    by_cases hmem : (e.cluster, e.proc) ∈ st.job_states.map Prod.fst
    · rw [if_pos hmem]
      exact h
    · rw [if_neg hmem]
      exact List.Nodup.append h (List.nodup_singleton _)
        (by simpa [List.disjoint_singleton] using hmem)

theorem foldl_counts_inv (es : List Event) (st : TrackState)
    (h1 : ∀ s, st.job_state_counts s = (statusCount st.job_states s : ℤ)) :
    ∀ s, (es.foldl ingest st).job_state_counts s
      = (statusCount (es.foldl ingest st).job_states s : ℤ) := by
  induction es generalizing st with
  | nil => exact h1
  | cons e t ih => exact ih (ingest st e) (ingest_counts_inv st e h1)

theorem foldl_nodup (es : List Event) (st : TrackState)
    (h : (st.job_states.map Prod.fst).Nodup) :
    (((es.foldl ingest st).job_states.map Prod.fst)).Nodup := by
  induction es generalizing st with
  | nil => exact h
  | cons e t ih => exact ih (ingest st e) (ingest_nodup st e h)

theorem foldl_keys_finset (es : List Event) (st : TrackState) :
    ((es.foldl ingest st).job_states.map Prod.fst).toFinset
      = (st.job_states.map Prod.fst).toFinset ∪ mappedKeysFinset es := by
  induction es generalizing st with
  | nil => simp [mappedKeysFinset]
  | cons e t ih =>
    rw [List.foldl_cons, ih (ingest st e), ingest_keys_finset]
    by_cases hm : isMapped e
    · rw [if_pos hm]
      have : mappedKeysFinset (e :: t)
          = insert ((e.cluster, e.proc) : EntityKey) (mappedKeysFinset t) := by
        simp [mappedKeysFinset, List.filter_cons, hm]
      rw [this, Finset.union_assoc, ← Finset.insert_eq, Finset.union_insert]
    · rw [if_neg hm]
      have : mappedKeysFinset (e :: t) = mappedKeysFinset t := by
        simp [mappedKeysFinset, List.filter_cons, hm]
      rw [this, Finset.union_empty]

theorem foldl_timeline_len (es : List Event) (st : TrackState) :
    (es.foldl ingest st).counts_over_time.length
      = st.counts_over_time.length + es.length := by
  induction es generalizing st with
  | nil => simp
  | cons e t ih =>
    rw [List.foldl_cons, ih (ingest st e), ingest_timeline_len]
    simp
    omega

theorem ingest_fields_eq (st1 st2 : TrackState) (e : Event)
    (hjs : st1.job_states = st2.job_states)
    (hc : st1.job_state_counts = st2.job_state_counts) :
    (ingest st1 e).job_states = (ingest st2 e).job_states
    ∧ (ingest st1 e).job_state_counts = (ingest st2 e).job_state_counts := by
  cases htr : JOB_EVENT_STATUS_TRANSITIONS e.type <;>
    simp [ingest, htr, hjs, hc]

theorem foldl_fields_eq (es : List Event) (st1 st2 : TrackState)
    (hjs : st1.job_states = st2.job_states)
    (hc : st1.job_state_counts = st2.job_state_counts) :
    (es.foldl ingest st1).job_states = (es.foldl ingest st2).job_states
    ∧ (es.foldl ingest st1).job_state_counts = (es.foldl ingest st2).job_state_counts := by
  induction es generalizing st1 st2 with
  | nil => exact ⟨hjs, hc⟩
  | cons e t ih =>
    have h := ingest_fields_eq st1 st2 e hjs hc
    exact ih (ingest st1 e) (ingest st2 e) h.1 h.2

theorem foldl_filter_mapped (es : List Event) (st : TrackState) :
    ((es.filter isMapped).foldl ingest st).job_states = (es.foldl ingest st).job_states
    ∧ ((es.filter isMapped).foldl ingest st).job_state_counts
        = (es.foldl ingest st).job_state_counts := by
  induction es generalizing st with
  | nil => exact ⟨rfl, rfl⟩
  | cons e t ih =>
    by_cases hm : isMapped e
    · rw [List.filter_cons_of_pos hm]
      simpa using ih (ingest st e)
    · rw [List.filter_cons_of_neg hm]
      have htr : JOB_EVENT_STATUS_TRANSITIONS e.type = none := by
        cases h2 : JOB_EVENT_STATUS_TRANSITIONS e.type with
        | none => rfl
        | some v =>
          exact absurd (by simp [isMapped, h2]) hm
      have hfe1 : (ingest st e).job_states = st.job_states := by simp [ingest, htr]
      have hfe2 : (ingest st e).job_state_counts = st.job_state_counts := by
        simp [ingest, htr]
      have hg := foldl_fields_eq t (ingest st e) st hfe1 hfe2
      have hi := ih st
      simp only [List.foldl_cons]
      exact ⟨hi.1.trans hg.1.symm, hi.2.trans hg.2.symm⟩

theorem counts_inv_init :
    ∀ s : JobStatus,
      ((⟨[], fun _ => 0, []⟩ : TrackState).job_state_counts s
        = (statusCount (⟨[], fun _ => 0, []⟩ : TrackState).job_states s : ℤ)) := by
  intro s
  rfl

theorem runTrack_total_eq_length (l : List Event) :
    totalCounts ((runTrack l).job_state_counts) = ((runTrack l).job_states.length : ℤ) := by
  have hc := foldl_counts_inv l ⟨[], fun _ => 0, []⟩ counts_inv_init
  unfold totalCounts runTrack
  rw [show (l.foldl ingest ⟨[], fun _ => 0, []⟩).job_state_counts
      = fun s => ((statusCount (l.foldl ingest ⟨[], fun _ => 0, []⟩).job_states s : ℕ) : ℤ)
    from funext hc]
  exact sum_statusCount _

theorem runTrack_take_len_step (es : List Event) (n : ℕ) :
    (runTrack (es.take n)).job_states.length
        ≤ (runTrack (es.take (n + 1))).job_states.length
    ∧ (runTrack (es.take (n + 1))).job_states.length
        ≤ (runTrack (es.take n)).job_states.length + 1 := by
  by_cases hn : n < es.length
  · have hsucc : es.take (n + 1) = es.take n ++ es[n]?.toList := List.take_succ
    have hget : es[n]?.toList = [es[n]?.getD ⟨0, 0, 0, .SUBMIT⟩] := by
      cases hx : es[n]? with
      | none =>
        have := List.getElem?_eq_none_iff.mp hx
        omega
      | some v => simp
    have hfold : runTrack (es.take (n + 1))
        = ingest (runTrack (es.take n)) (es[n]?.getD ⟨0, 0, 0, .SUBMIT⟩) := by
      rw [hsucc, hget]
      unfold runTrack
      rw [List.foldl_append]
      simp
    rw [hfold]
    rcases ingest_map_fst (runTrack (es.take n)) (es[n]?.getD ⟨0, 0, 0, .SUBMIT⟩) with h | h
    · have := congrArg List.length h
      simp only [List.length_map] at this
      omega
    · have := congrArg List.length h
      simp only [List.length_map, List.length_append, List.length_cons,
        List.length_nil] at this
      omega
  · rw [List.take_of_length_le (by omega), List.take_of_length_le (by omega)]
    omega

/-- C7: as events are ingested one at a time, the total across all statuses in
the running StatusCounts never decreases — each ingested event leaves the
total unchanged or raises it by exactly one — and no per-status count is ever
negative. -/
theorem C7_total_monotone_nonneg (es : List Event) (n : ℕ) :
    totalCounts ((runTrack (es.take n)).job_state_counts)
      ≤ totalCounts ((runTrack (es.take (n + 1))).job_state_counts)
    ∧ totalCounts ((runTrack (es.take (n + 1))).job_state_counts)
      ≤ totalCounts ((runTrack (es.take n)).job_state_counts) + 1
    ∧ ∀ s, 0 ≤ (runTrack es).job_state_counts s := by
  have hstep := runTrack_take_len_step es n
  refine ⟨?_, ?_, ?_⟩
  · rw [runTrack_total_eq_length, runTrack_total_eq_length]
    exact_mod_cast hstep.1
  · rw [runTrack_total_eq_length, runTrack_total_eq_length]
    have := hstep.2
    omega
  · intro s
    unfold runTrack
    rw [foldl_counts_inv es ⟨[], fun _ => 0, []⟩ counts_inv_init s]
    exact Int.natCast_nonneg _

/-- C10 (implicit): after ingesting any finite event sequence, the total
across all statuses equals the number of distinct entity keys that have had at
least one event whose kind appears in the transition table; events with kinds
outside the table change neither the key-to-status map nor the counts (running
the tracker on the mapped events alone yields the same map and counts); and
the timeline log gains exactly one point per ingested event, mapped or not. -/
theorem C10_tracker_invariants (es : List Event) :
    totalCounts ((runTrack es).job_state_counts) = ((mappedKeysFinset es).card : ℤ)
    ∧ (runTrack es).counts_over_time.length = es.length
    ∧ (runTrack es).job_states = (runTrack (es.filter isMapped)).job_states
    ∧ (runTrack es).job_state_counts = (runTrack (es.filter isMapped)).job_state_counts := by
  refine ⟨?_, ?_, ?_, ?_⟩
  · rw [runTrack_total_eq_length]
    unfold runTrack
    have hkeys := foldl_keys_finset es ⟨[], fun _ => 0, []⟩
    have hnd := foldl_nodup es (⟨[], fun _ => 0, []⟩ : TrackState) (by simp)
    have hfin : ((es.foldl ingest ⟨[], fun _ => 0, []⟩).job_states.map Prod.fst).toFinset
        = mappedKeysFinset es := by simpa using hkeys
    have hlen : ((es.foldl ingest ⟨[], fun _ => 0, []⟩).job_states.map Prod.fst).toFinset.card
        = (es.foldl ingest ⟨[], fun _ => 0, []⟩).job_states.length := by
      rw [List.toFinset_card_of_nodup hnd, List.length_map]
    rw [← hlen, hfin]
  · exact (foldl_timeline_len es _).trans (by simp)
  · exact (foldl_filter_mapped es _).1.symm
  · exact (foldl_filter_mapped es _).2.symm

theorem getD_set_self {α : Type} (l : List α) (i : ℕ) (v d : α) (hi : i < l.length) :
    (l.set i v).getD i d = v := by
  induction l generalizing i with
  | nil => simp at hi
  | cons x t ih =>
    cases i with
    | zero => simp
    | succ j => simpa using ih j (by simpa using hi)

theorem le_foldl_max_self (t : List ℕ) (h : ℕ) : h ≤ t.foldl max h := by
  induction t generalizing h with
  | nil => simp
  | cons a t ih => exact le_trans (le_max_left h a) (ih (max h a))

theorem mem_le_foldl_max (t : List ℕ) (h x : ℕ) (hx : x ∈ h :: t) : x ≤ t.foldl max h := by
  induction t generalizing h with
  | nil =>
    simp only [List.mem_singleton] at hx
    subst hx
    simp
  | cons a t ih =>
    rcases List.mem_cons.mp hx with rfl | hx2
    · exact le_trans (le_max_left x a) (le_foldl_max_self t (max x a))
    · rcases List.mem_cons.mp hx2 with rfl | hx3
      · exact le_trans (le_max_right h x) (le_foldl_max_self t (max h x))
      · exact ih (max h a) (List.mem_cons_of_mem (max h a) hx3)

theorem le_listMaxNat (l : List ℕ) (x : ℕ) (hx : x ∈ l) : x ≤ listMaxNat l := by
  cases l with
  | nil => simp at hx
  | cons h t => exact mem_le_foldl_max t h x hx

theorem mergeStep_length (out : List Char) (p : ℕ × Char) :
    (mergeStep out p).length = out.length := by
  unfold mergeStep
  split_ifs <;> simp

theorem foldl_mergeStep_length (ps : List (ℕ × Char)) (out : List Char) :
    (ps.foldl mergeStep out).length = out.length := by
  induction ps generalizing out with
  | nil => rfl
  | cons p t ih => rw [List.foldl_cons, ih, mergeStep_length]

theorem mergeString_length (out : List Char) (s : String) :
    (mergeString out s).length = out.length := foldl_mergeStep_length _ _

theorem foldl_mergeString_length (strings : List String) (out : List Char) :
    (strings.foldl mergeString out).length = out.length := by
  induction strings generalizing out with
  | nil => rfl
  | cons s t ih => rw [List.foldl_cons, ih, mergeString_length]

theorem enumFrom_foldl_mergeStep_getD (l : List Char) (k : ℕ) (out : List Char) (i : ℕ)
    (hi : i < out.length) :
    ((List.enumFrom k l).foldl mergeStep out).getD i ' '
      = if out.getD i ' ' = ' ' ∧ k ≤ i ∧ i - k < l.length ∧ l.getD (i - k) ' ' ≠ ' '
        then l.getD (i - k) ' ' else out.getD i ' ' := by
  induction l generalizing k out with
  | nil => simp
  | cons c t ih =>
    simp only [List.enumFrom, List.foldl_cons]
    have h4 : (c :: t).getD (k - k) ' ' = c := by
      rw [Nat.sub_self]
      rfl
    by_cases hki : k = i
    · subst hki
      by_cases hout : out.getD k ' ' = ' '
      · by_cases hc : c = ' '
        · have hstep : mergeStep out (k, c) = out := by
            unfold mergeStep
            exact if_neg (fun h => h.2 hc)
          rw [hstep, ih (k + 1) out hi,
            if_neg (fun h => (by omega : ¬ (k + 1 ≤ k)) h.2.1),
            if_neg (fun h => h.2.2.2 (by rw [h4, hc]))]
        · have hstep : mergeStep out (k, c) = out.set k c := by
            unfold mergeStep
            exact if_pos ⟨hout, hc⟩
          have hlen2 : k < (out.set k c).length := by simpa using hi
          rw [hstep, ih (k + 1) (out.set k c) hlen2,
            if_neg (fun h => (by omega : ¬ (k + 1 ≤ k)) h.2.1),
            getD_set_self out k c ' ' hi,
            if_pos ⟨hout, le_refl k, by simp, by rw [h4]; exact hc⟩, h4]
      · have hstep : mergeStep out (k, c) = out := by
          unfold mergeStep
          exact if_neg (fun h => hout h.1)
        rw [hstep, ih (k + 1) out hi,
          if_neg (fun h => hout h.1), if_neg (fun h => hout h.1)]
    · have hgi : (mergeStep out (k, c)).getD i ' ' = out.getD i ' ' := by
        unfold mergeStep
        split_ifs with hcnd
        · exact getD_set_ne out k i c ' ' hki
        · rfl
      rw [ih (k + 1) (mergeStep out (k, c)) (by rw [mergeStep_length]; exact hi), hgi]
      by_cases hk2 : k < i
      · have hidx : i - k = (i - (k + 1)) + 1 := by omega
        have hval : (c :: t).getD (i - k) ' ' = t.getD (i - (k + 1)) ' ' := by
          rw [hidx]
          simp
        rw [hval]
        have e1 : (k + 1 ≤ i) ↔ (k ≤ i) := by omega
        have e2 : (i - (k + 1) < t.length) ↔ (i - k < (c :: t).length) := by
          simp only [List.length_cons]
          omega
        simp only [e1, e2]
      · have c1 : ¬ (k + 1 ≤ i) := by omega
        have c2 : ¬ (k ≤ i) := by omega
        simp [c1, c2]

theorem mergeString_getD (out : List Char) (s : String) (i : ℕ) (hi : i < out.length) :
    (mergeString out s).getD i ' '
      = if out.getD i ' ' = ' ' ∧ i < s.length ∧ s.toList.getD i ' ' ≠ ' '
        then s.toList.getD i ' ' else out.getD i ' ' := by
  have h := enumFrom_foldl_mergeStep_getD s.toList 0 out i hi
  have hsl : s.length = s.toList.length := rfl
  have henum : s.toList.enum = List.enumFrom 0 s.toList := rfl
  unfold mergeString
  rw [henum, h]
  simp only [Nat.sub_zero, hsl, Nat.zero_le, true_and]

theorem mergeSpecAt_cons (s : String) (rest : List String) (i : ℕ) :
    mergeSpecAt (s :: rest) i
      = if i < s.length ∧ s.toList.getD i ' ' ≠ ' '
        then s.toList.getD i ' ' else mergeSpecAt rest i := by
  unfold mergeSpecAt
  rw [List.find?]
  by_cases hp : i < s.length ∧ s.toList.getD i ' ' ≠ ' '
  · have hb : (decide (i < s.length) && decide (s.toList.getD i ' ' ≠ ' ')) = true := by
      simp only [Bool.and_eq_true, decide_eq_true_eq]
      exact ⟨hp.1, hp.2⟩
    rw [hb, if_pos hp]
  · have hb : (decide (i < s.length) && decide (s.toList.getD i ' ' ≠ ' ')) = false := by
      by_cases h1 : i < s.length
      · have h2 : ¬ s.toList.getD i ' ' ≠ ' ' := fun hx => hp ⟨h1, hx⟩
        simp only [decide_eq_false h2, Bool.and_false]
      · simp only [decide_eq_false h1, Bool.false_and]
    rw [hb, if_neg hp]

theorem foldl_mergeString_getD (strings : List String) (out : List Char) (i : ℕ)
    (hi : i < out.length) (hlen : ∀ s ∈ strings, s.length ≤ out.length) :
    (strings.foldl mergeString out).getD i ' '
      = if out.getD i ' ' = ' ' then mergeSpecAt strings i else out.getD i ' ' := by
  induction strings generalizing out with
  | nil =>
    simp only [List.foldl_nil]
    by_cases h1 : out.getD i ' ' = ' '
    · rw [if_pos h1]
      unfold mergeSpecAt
      rw [show List.find? _ ([] : List String) = none from rfl]
      exact h1
    · rw [if_neg h1]
  | cons s rest ih =>
    rw [List.foldl_cons]
    have hi2 : i < (mergeString out s).length := by rw [mergeString_length]; exact hi
    have hlen2 : ∀ x ∈ rest, x.length ≤ (mergeString out s).length := by
      intro x hx
      rw [mergeString_length]
      exact hlen x (List.mem_cons_of_mem s hx)
    rw [ih (mergeString out s) hi2 hlen2, mergeSpecAt_cons]
    have hms := mergeString_getD out s i hi
    by_cases h1 : out.getD i ' ' = ' '
    · by_cases h2 : i < s.length ∧ s.toList.getD i ' ' ≠ ' '
      · have hv : (mergeString out s).getD i ' ' = s.toList.getD i ' ' := by
          rw [hms, if_pos ⟨h1, h2.1, h2.2⟩]
        rw [hv, if_neg h2.2, if_pos h1, if_pos h2]
      · have hv : (mergeString out s).getD i ' ' = out.getD i ' ' := by
          rw [hms, if_neg (fun hcon => h2 ⟨hcon.2.1, hcon.2.2⟩)]
        rw [hv, if_pos h1, if_pos h1, if_neg h2]
    · have hv : (mergeString out s).getD i ' ' = out.getD i ' ' := by
        rw [hms, if_neg (fun hcon => h1 hcon.1)]
      rw [hv, if_neg h1, if_neg h1]

theorem getD_replicate_space (n i : ℕ) : (List.replicate n ' ').getD i ' ' = ' ' := by
  induction n generalizing i with
  | zero => simp
  | succ m ih =>
    cases i with
    | zero => simp [List.replicate]
    | succ j =>
      rw [show List.replicate (m + 1) ' ' = ' ' :: List.replicate m ' ' from rfl,
        List.getD_cons_succ]
      exact ih j

/-- C9: the claim quantifies over every tuple of input strings, including the
empty tuple, where the code raises `ValueError` (`max()` of an empty sequence;
see the counterexample).  Amended statement proved here: for every nonempty
tuple of input strings, `merge_strings` returns the string whose character at
each position `i` (up to the longest input length) is the first non-space
character among the inputs at position `i` — in argument order — and a space
where no input has a non-space character. -/
theorem C9_merge_first_nonspace (strings : List String) (hne : strings ≠ []) :
    merge_strings strings
      = some (String.mk ((List.range (listMaxNat (strings.map String.length))).map
          (mergeSpecAt strings))) := by
  obtain ⟨s0, rest, rfl⟩ : ∃ s0 rest, strings = s0 :: rest := by
    cases strings with
    | nil => exact absurd rfl hne
    | cons s0 rest => exact ⟨s0, rest, rfl⟩
  rw [show merge_strings (s0 :: rest)
      = some (String.mk ((s0 :: rest).foldl mergeString
          (List.replicate (listMaxNat ((s0 :: rest).map String.length)) ' '))) from rfl]
  refine congrArg some (congrArg String.mk ?_)
  apply List.ext_getElem
  · rw [foldl_mergeString_length, List.length_replicate, List.length_map,
      List.length_range]
  · intro i h1 h2
    have hiR : i < listMaxNat ((s0 :: rest).map String.length) := by
      rw [foldl_mergeString_length, List.length_replicate] at h1
      exact h1
    have hlen : ∀ s ∈ s0 :: rest, s.length
        ≤ (List.replicate (listMaxNat ((s0 :: rest).map String.length)) ' ').length := by
      intro s hs
      rw [List.length_replicate]
      exact le_listMaxNat _ _ (List.mem_map_of_mem String.length hs)
    have hgd := foldl_mergeString_getD (s0 :: rest)
      (List.replicate (listMaxNat ((s0 :: rest).map String.length)) ' ') i
      (by rw [List.length_replicate]; exact hiR) hlen
    rw [getD_replicate_space] at hgd
    rw [if_pos rfl] at hgd
    rw [← List.getD_eq_getElem _ ' ' h1, hgd]
    rw [List.getElem_map, List.getElem_range]

/-- C9 witness: `merge("AB  ", "  CD", "    ") == "ABCD"`, obtained by
instantiating the characterisation at the spec's own example. -/
theorem C9_merge_first_nonspace_witness :
    merge_strings ["AB  ", "  CD", "    "] = some "ABCD" :=
  (C9_merge_first_nonspace ["AB  ", "  CD", "    "] (by simp)).trans (by decide)

/-- C9 counterexample: on the empty tuple of inputs the claim calls for the
empty merge (a string with a character at no position), but the code raises
`ValueError` evaluating `max(len(s) for s in strings)` over an empty
sequence — `merge_strings` produces no string at all. -/
theorem C9_empty_tuple_cex : merge_strings [] = none := rfl

/-- C5: on the empty event sequence the engine fails with the empty-input
error (in Python, the `IndexError` from `counts_over_time[0]` at the top of
`histogram`) before any sampling: in the embedding, `histogram` returns the
error from its emptiness check without ever invoking `group_counts_by_time`,
and `make_state_graph` propagates it. -/
theorem C5_empty_input_error :
    ∀ w h c l : ℤ,
      histogram [] w h = .error .emptyInput
      ∧ make_state_graph [] c l = .error .emptyInput := by
  intro w h c l
  exact ⟨rfl, rfl⟩

theorem group_two_points : group_counts_by_time [((0 : ℚ), zeroCounts), ((1 : ℚ), zeroCounts)] 1
    = [[((0 : ℚ), zeroCounts)]] := by
  rw [group_counts_eq _ _ (by simp),
    show firstTime [((0 : ℚ), zeroCounts), ((1 : ℚ), zeroCounts)] = 0 from rfl,
    show windowWidth [((0 : ℚ), zeroCounts), ((1 : ℚ), zeroCounts)] 1 = 1 from by
      norm_num [windowWidth, lastTime, firstTime]]
  show group_aux [((0 : ℚ), zeroCounts), ((1 : ℚ), zeroCounts)] 0 1 (0 + 1) 0 0
    = [[((0 : ℚ), zeroCounts)]]
  rw [group_aux_succ, group_aux_zero]
  norm_num [scanIdx]

theorem totalQ_zero : totalQ (toQCounts zeroCounts) = 0 := by
  norm_num [totalQ, toQCounts, zeroCounts, JobStatus.all]

theorem histogram_zero_counts :
    histogram [((0 : ℚ), zeroCounts), ((1 : ℚ), zeroCounts)] 1 1 = .error .noActiveJobs := by
  simp only [histogram, group_two_points]
  norm_num [listMaxQ, buildColumns, List.foldlM, calculate_column_partition,
    totalQ_zero, Bind.bind, Except.bind, List.filterMap_cons, List.filterMap_nil,
    id_eq, List.map_cons, List.map_nil, List.foldl_nil]

/-- C6: a zero `maxTotal` makes the Row Partitioner fail with the
no-active-jobs error (in Python, the `ZeroDivisionError` from
`count / max_jobs`), for every sample and height; and the engine hits exactly
this error on a timeline whose samples are all zero (e.g. one produced by two
events with unrecognized kinds). -/
theorem C6_zero_max_total_error :
    (∀ (counts : QCounts) (h : ℤ),
        calculate_column_partition counts 0 h = .error .noActiveJobs)
    ∧ histogram [((0 : ℚ), zeroCounts), ((1 : ℚ), zeroCounts)] 1 1 = .error .noActiveJobs := by
  refine ⟨fun counts h => ?_, histogram_zero_counts⟩
  simp [calculate_column_partition]

theorem runTrack_submit :
    (runTrack [submitEvent]).counts_over_time
      = [((0 : ℚ), bump (fun _ => 0) JobStatus.IDLE 1)] := rfl

theorem group_single_submit :
    group_counts_by_time [((0 : ℚ), bump (fun _ => 0) JobStatus.IDLE 1)] 1 = [[]] := by
  rw [group_counts_eq _ _ (by simp),
    show firstTime [((0 : ℚ), bump (fun _ => 0) JobStatus.IDLE 1)] = 0 from rfl,
    show windowWidth [((0 : ℚ), bump (fun _ => 0) JobStatus.IDLE 1)] 1 = 0 from by
      norm_num [windowWidth, lastTime, firstTime]]
  show group_aux [((0 : ℚ), bump (fun _ => 0) JobStatus.IDLE 1)] 0 0 (0 + 1) 0 0 = [[]]
  rw [group_aux_succ, group_aux_zero]
  norm_num [scanIdx]

/-- C4: the claim (from the spec's own test list) says the single-event input
`[(t=0, key=(1,0), SUBMIT)]` with `W = 1`, `H = 1` renders one column holding
the Idle symbol.  The code instead crashes: the bucket scan never consumes the
final (here: only) point, so the single window is empty and
`counts[0] = groups[0][-1][1]` raises `IndexError`.  This theorem evaluates
the embedded `histogram` on exactly that input. -/
theorem C4_single_event_pipeline_fails :
    histogram ((runTrack [submitEvent]).counts_over_time) 1 1 = .error .indexError := by
  rw [runTrack_submit]
  simp only [histogram, group_single_submit]
  norm_num

/-- C8: the render is deterministic — two runs on the same (event sequence,
terminal width, terminal height) triple produce byte-identical output.  The
embedding is a pure function of exactly that triple (the Python code reads
the terminal size from the environment; it is passed here explicitly, and the
timestamp formatting is modelled at a fixed timezone), so equal inputs give
equal strings. -/
theorem C8_render_two_run_equal (es1 es2 : List Event) (c1 c2 l1 l2 : ℤ)
    (he : es1 = es2) (hc : c1 = c2) (hl : l1 = l2) :
    make_state_graph es1 c1 l1 = make_state_graph es2 c2 l2 := by
  subst he
  subst hc
  subst hl
  rfl

/-- C8 witness: two runs on the single-SUBMIT input with a 90×30 terminal. -/
theorem C8_render_two_run_equal_witness :
    make_state_graph [submitEvent] 90 30 = make_state_graph [submitEvent] 90 30 :=
  C8_render_two_run_equal [submitEvent] [submitEvent] 90 90 30 30 rfl rfl rfl
